import Mathlib

set_option linter.unusedVariables false

/-!
Verification of the everterm market-ingest engine.

The definitions below are shallow embeddings of the Rust sources:
  crates/esi/src/market.rs     (Order, OrderBook, Market, MarketDiff, Market::delta)
  crates/esi/src/universe.rs   (identifier newtypes and their TryFrom ranges)
  crates/esi/src/lib.rs        (ESIClient status classification and error-budget throttle)
  crates/data_fetcher/src/lib.rs    (refresh_region_data sleep computation, update_market_data)
  crates/data_fetcher/src/server.rs (the GET /market/:id handler)

Hash maps (std HashMap and DashMap) are modelled as association lists
`List (Nat × α)`; the list order stands for the map's arbitrary but fixed
iteration order.  Machine integers are modelled as `Nat` (u32/u64 values are
in range at every use below; bounds are carried as hypotheses where the claim
mentions the machine width).  `f64` is modelled by `F64` below.
-/

/-- Model of an `f64` double.  Finite nonzero values are rationals (every
finite double is a rational, and no arithmetic is performed on prices in the
modelled code, only `==` and `total_cmp`).  The negative zero, the two
infinities and the two NaN signs are separate constructors; NaN payloads are
collapsed, which none of the modelled operations distinguish.  `F64.nan false`
plays the role of the canonical `f64::NAN` (positive quiet NaN). -/
inductive F64 where
  /-- a NaN with the given sign bit (`true` = negative) -/
  | nan (neg : Bool)
  /-- an infinity with the given sign bit -/
  | inf (neg : Bool)
  /-- the negative zero -/
  | negZero
  /-- a finite value; `finite 0` is the positive zero -/
  | finite (q : ℚ)
deriving DecidableEq, Repr

/-- IEEE-754 `==` on doubles (Rust `f64: PartialEq`): NaN compares unequal to
everything including itself, `-0.0 == 0.0`, otherwise value equality. -/
def F64.ieeeEq : F64 → F64 → Bool
  | .nan _, _ => false
  | _, .nan _ => false
  | .inf a, .inf b => a == b
  | .inf _, _ => false
  | _, .inf _ => false
  | .negZero, .negZero => true
  | .negZero, .finite q => q == 0
  | .finite q, .negZero => q == 0
  | .finite a, .finite b => a == b

/-- The level of a double in the `f64::total_cmp` order:
-NaN < -inf < negative finite < -0 < +0 < positive finite < +inf < +NaN. -/
def F64.level : F64 → Nat
  | .nan true => 0
  | .inf true => 1
  | .finite q => if q < 0 then 2 else if q = 0 then 4 else 5
  | .negZero => 3
  | .nan false => 7
  | .inf false => 6

/-- The in-level key of a double (only finite nonzero values have distinct
keys inside one level). -/
def F64.key : F64 → ℚ
  | .finite q => q
  | _ => 0

/-- Rust `f64::total_cmp`: the IEEE-754 totalOrder predicate.  Within the
negative and positive finite levels the bit order coincides with the numeric
order, so levels plus the numeric key give exactly the total order. -/
def F64.totalCmp (a b : F64) : Ordering :=
  if a.level = b.level then compare a.key b.key else compare a.level b.level

/-- `MarketOrderRange` from market.rs: `System(u32) | Station | Region`. -/
inductive MarketOrderRange where
  | system (jumps : Nat)
  | station
  | region
deriving DecidableEq, Repr

/-- `InvalidIDError { value: u64, acceptable: Range<u64> }` from universe.rs:
the offending value together with the half-open accepted interval
`[lo, hi)` (Rust `Range` start and end). -/
structure InvalidIDError where
  value : Nat
  lo : Nat
  hi : Nat
deriving DecidableEq, Repr

/-- `RegionID` newtype over u32. -/
structure RegionID where
  value : Nat
deriving DecidableEq, Repr

/-- `SystemID` newtype over u32. -/
structure SystemID where
  value : Nat
deriving DecidableEq, Repr

/-- `ConstellationID` newtype over u32. -/
structure ConstellationID where
  value : Nat
deriving DecidableEq, Repr

/-- `StationID` newtype over u64. -/
structure StationID where
  value : Nat
deriving DecidableEq, Repr

/-- `TryFrom<u32> for RegionID` (universe.rs): accept `10_000_000..20_000_000`. -/
def RegionID.tryFrom (value : Nat) : Except InvalidIDError RegionID :=
  if 10000000 ≤ value ∧ value < 20000000 then .ok ⟨value⟩
  else .error ⟨value, 10000000, 20000000⟩

/-- `TryFrom<u32> for SystemID` (universe.rs): accept `30_000_000..40_000_000`. -/
def SystemID.tryFrom (value : Nat) : Except InvalidIDError SystemID :=
  if 30000000 ≤ value ∧ value < 40000000 then .ok ⟨value⟩
  else .error ⟨value, 30000000, 40000000⟩

/-- `TryFrom<u32> for ConstellationID` (universe.rs): accept `20_000_000..30_000_000`. -/
def ConstellationID.tryFrom (value : Nat) : Except InvalidIDError ConstellationID :=
  if 20000000 ≤ value ∧ value < 30000000 then .ok ⟨value⟩
  else .error ⟨value, 20000000, 30000000⟩

/-- `TryFrom<u64> for StationID` (universe.rs): accept `60_000_000..64_000_000`. -/
def StationID.tryFrom (value : Nat) : Except InvalidIDError StationID :=
  if 60000000 ≤ value ∧ value < 64000000 then .ok ⟨value⟩
  else .error ⟨value, 60000000, 64000000⟩

/-- `Order` from market.rs.  `DateTime<Utc>` instants are modelled as integer
timestamps (no arithmetic on them occurs in the modelled code). -/
structure Order where
  id : Nat
  is_buy_order : Bool
  price : F64
  issued : Int
  expiry : Int
  location_id : StationID
  system_id : SystemID
  min_volume : Nat
  range : MarketOrderRange
  volume_remain : Nat
  volume_total : Nat
deriving DecidableEq, Repr

/-- The derived `PartialEq` on `Order`: field-wise equality, with IEEE `==`
on the `price` field (so an order with NaN price is unequal to itself). -/
def Order.beq (a b : Order) : Bool :=
  a.id == b.id && a.is_buy_order == b.is_buy_order && F64.ieeeEq a.price b.price
    && a.issued == b.issued && a.expiry == b.expiry && a.location_id == b.location_id
    && a.system_id == b.system_id && a.min_volume == b.min_volume
    && a.range == b.range && a.volume_remain == b.volume_remain
    && a.volume_total == b.volume_total

/-- `Ord for Order` (market.rs): descending by price using `total_cmp`
(`self.price.total_cmp(&other.price).reverse()`). -/
def Order.cmp (a b : Order) : Ordering :=
  (F64.totalCmp a.price b.price).swap

/-- The equality on orders that the specification calls structural equality
of order values: Rust `==` (spec §3, with `-0.0 == 0.0`) extended to be
reflexive on NaN prices as §9 prescribes ("NaN is ... treated equal to
itself for equality on `Order`").  Identical values are always related, and
so are values the derived `PartialEq` equates. -/
def Order.specEq (a b : Order) : Prop :=
  a = b ∨ Order.beq a b = true

/-! ### Association-list model of HashMap / DashMap -/

/-- `HashMap::get` / `DashMap::get`: the value at the first entry with the
given key. -/
def alookup {α : Type} (m : List (Nat × α)) (k : Nat) : Option α :=
  match m with
  | [] => none
  | p :: rest => if p.1 = k then some p.2 else alookup rest k

/-- The keys of an association list in iteration order. -/
def akeys {α : Type} (m : List (Nat × α)) : List Nat :=
  m.map (fun p => p.1)

/-- `HashMap::insert`: overwrite the entry when the key is present, append it
otherwise. -/
def ainsert {α : Type} (m : List (Nat × α)) (k : Nat) (v : α) : List (Nat × α) :=
  if (alookup m k).isSome then m.map (fun p => if p.1 = k then (k, v) else p)
  else m ++ [(k, v)]

/-- `get_mut(k).unwrap().push(v)` on a map of vectors: append `v` to the list
stored at `k`.  When `k` is absent the source panics; every use below first
inserts the entry (the `OrderBook.item` field equals its map key at every
construction site), so the absent case is unreachable and is mapped to the
identity. -/
def apush {α : Type} (m : List (Nat × List α)) (k : Nat) (v : α) : List (Nat × List α) :=
  m.map (fun p => if p.1 = k then (p.1, p.2 ++ [v]) else p)

/-- `get_mut(k)` followed by an in-place update of the stored value. -/
def amodify {α : Type} (m : List (Nat × α)) (k : Nat) (f : α → α) : List (Nat × α) :=
  m.map (fun p => if p.1 = k then (p.1, f p.2) else p)

/-- `HashMap::remove`: drop the entry with the given key. -/
def aremove {α : Type} (m : List (Nat × α)) (k : Nat) : List (Nat × α) :=
  m.filter (fun p => p.1 != k)

@[simp] theorem alookup_nil {α : Type} (k : Nat) : alookup ([] : List (Nat × α)) k = none := rfl

@[simp] theorem alookup_cons {α : Type} (p : Nat × α) (m : List (Nat × α)) (k : Nat) :
    alookup (p :: m) k = if p.1 = k then some p.2 else alookup m k := rfl

theorem alookup_append {α : Type} (a b : List (Nat × α)) (k : Nat) :
    alookup (a ++ b) k = ((alookup a k).or (alookup b k)) := by
  induction a with
  | nil => simp
  | cons p rest ih =>
    by_cases h : p.1 = k <;> simp [h, ih]

theorem alookup_eq_none_iff {α : Type} (m : List (Nat × α)) (k : Nat) :
    alookup m k = none ↔ k ∉ akeys m := by
  induction m with
  | nil => simp [akeys]
  | cons p rest ih =>
    by_cases h : p.1 = k
    · simp [akeys, h, ih]
    · simp [akeys, h, ih]
      tauto

theorem alookup_isSome_iff {α : Type} (m : List (Nat × α)) (k : Nat) :
    (alookup m k).isSome = true ↔ k ∈ akeys m := by
  rw [Option.isSome_iff_ne_none]
  constructor
  · intro h
    by_contra hk
    exact h ((alookup_eq_none_iff m k).mpr hk)
  · intro h hn
    exact ((alookup_eq_none_iff m k).mp hn) h

theorem mem_of_alookup_eq_some {α : Type} {m : List (Nat × α)} {k : Nat} {v : α}
    (h : alookup m k = some v) : (k, v) ∈ m := by
  induction m with
  | nil => simp at h
  | cons p rest ih =>
    obtain ⟨p1, p2⟩ := p
    by_cases hk : p1 = k
    · simp [hk] at h
      subst hk
      subst h
      exact List.mem_cons_self _ _
    · simp [hk] at h
      exact List.mem_cons_of_mem _ (ih h)

theorem alookup_eq_some_of_mem {α : Type} {m : List (Nat × α)} {k : Nat} {v : α}
    (hnd : (akeys m).Nodup) (h : (k, v) ∈ m) : alookup m k = some v := by
  induction m with
  | nil => simp at h
  | cons p rest ih =>
    simp only [akeys, List.map_cons, List.nodup_cons] at hnd
    rcases List.mem_cons.mp h with h1 | h2
    · subst h1
      simp
    · have hk : ¬ p.1 = k := by
        intro hcontra
        exact hnd.1 (hcontra ▸ (List.mem_map_of_mem (fun q => q.1) h2))
      simp [hk]
      exact ih hnd.2 h2

@[simp] theorem akeys_append {α : Type} (a b : List (Nat × α)) :
    akeys (a ++ b) = akeys a ++ akeys b := by
  simp [akeys]

theorem ainsert_of_not_mem {α : Type} {m : List (Nat × α)} {k : Nat} (v : α)
    (h : k ∉ akeys m) : ainsert m k v = m ++ [(k, v)] := by
  have : alookup m k = none := (alookup_eq_none_iff m k).mpr h
  simp [ainsert, this]


theorem apush_append_last {α : Type} {m : List (Nat × List α)} {k : Nat} (l : List α) (v : α)
    (h : k ∉ akeys m) : apush (m ++ [(k, l)]) k v = m ++ [(k, l ++ [v])] := by
  induction m with
  | nil => simp [apush]
  | cons p rest ih =>
    simp only [akeys, List.map_cons, List.mem_cons] at h
    push_neg at h
    have hp : ¬ p.1 = k := fun hc => h.1 hc.symm
    have hrest : k ∉ akeys rest := h.2
    simp only [apush, List.cons_append, List.map_cons, if_neg hp]
    have := ih hrest
    simp only [apush] at this
    rw [this]

theorem alookup_map_replace {α : Type} (m : List (Nat × α)) (k t : Nat) (v : α) :
    alookup (m.map (fun p => if p.1 = k then (k, v) else p)) t =
      if k = t then (alookup m t).map (fun _ => v) else alookup m t := by
  induction m with
  | nil => simp
  | cons p rest ih =>
    by_cases hp : p.1 = k
    · by_cases hkt : k = t
      · simp [hp, hkt]
      · have hpt : ¬ p.1 = t := by rw [hp]; exact hkt
        simp [hp, hkt, hpt, ih]
    · by_cases hpt : p.1 = t
      · have hkt : ¬ k = t := fun hc => hp (by rw [hc, hpt])
        have hkt2 : ¬ t = k := fun hc => hkt hc.symm
        simp [hp, hkt, hkt2, hpt]
      · simp [hp, hpt, ih]

theorem alookup_ainsert {α : Type} (m : List (Nat × α)) (k t : Nat) (v : α) :
    alookup (ainsert m k v) t = if k = t then some v else alookup m t := by
  unfold ainsert
  by_cases hs : (alookup m k).isSome = true
  · rw [if_pos hs, alookup_map_replace]
    by_cases hkt : k = t
    · subst hkt
      obtain ⟨w, hw⟩ := Option.isSome_iff_exists.mp hs
      simp [hw]
    · simp [hkt]
  · rw [if_neg hs, alookup_append]
    by_cases hkt : k = t
    · subst hkt
      have hnone : alookup m k = none := Option.not_isSome_iff_eq_none.mp hs
      simp [hnone, Option.or]
    · cases h : alookup m t with
      | none => simp [h, Option.or, alookup, hkt]
      | some w => simp [h, Option.or, hkt]

theorem alookup_amodify {α : Type} (m : List (Nat × α)) (k t : Nat) (f : α → α) :
    alookup (amodify m k f) t =
      if k = t then (alookup m t).map f else alookup m t := by
  induction m with
  | nil => simp [amodify]
  | cons p rest ih =>
    simp only [amodify, List.map_cons] at ih ⊢
    by_cases hp : p.1 = k
    · by_cases hkt : k = t
      · have hpt : p.1 = t := by rw [hp, hkt]
        simp [hp, hkt, hpt]
      · have hpt : ¬ p.1 = t := by rw [hp]; exact hkt
        simp [hp, hkt, hpt, ih]
    · by_cases hpt : p.1 = t
      · have hkt : ¬ k = t := fun hc => hp (by rw [hc, hpt])
        have hkt2 : ¬ t = k := fun hc => hkt hc.symm
        simp [hp, hkt, hkt2, hpt]
      · simp [hp, hpt, ih]

theorem alookup_apush {α : Type} (m : List (Nat × List α)) (k t : Nat) (v : α) :
    alookup (apush m k v) t =
      if k = t then (alookup m t).map (fun l => l ++ [v]) else alookup m t := by
  have : apush m k v = amodify m k (fun l => l ++ [v]) := rfl
  rw [this, alookup_amodify]

theorem alookup_aremove {α : Type} (m : List (Nat × α)) (k t : Nat) :
    alookup (aremove m k) t = if k = t then none else alookup m t := by
  induction m with
  | nil => simp [aremove]
  | cons p rest ih =>
    simp only [aremove, List.filter_cons] at ih ⊢
    by_cases hp : p.1 = k
    · by_cases hkt : k = t
      · simp [hp, hkt] at ih ⊢
        exact ih
      · simp [hp, hkt] at ih ⊢
        exact ih
    · by_cases hpt : p.1 = t
      · have hkt : ¬ k = t := fun hc => hp (by rw [hc, hpt])
        have hkt2 : ¬ t = k := fun hc => hkt hc.symm
        simp [hp, hkt, hkt2, hpt]
      · simp [hp, hpt, ih]

theorem akeys_ainsert_of_not_mem {α : Type} {m : List (Nat × α)} {k : Nat} (v : α)
    (h : k ∉ akeys m) : akeys (ainsert m k v) = akeys m ++ [k] := by
  rw [ainsert_of_not_mem v h]
  simp [akeys]

/-! ### Market data model (market.rs) -/

/-- `OrderBook { item: u32, orders: HashMap<u64, Order> }`. -/
structure OrderBook where
  item : Nat
  orders : List (Nat × Order)
deriving DecidableEq, Repr

/-- `OrderBook::new(item)`. -/
def OrderBook.new (item : Nat) : OrderBook :=
  ⟨item, []⟩

/-- `Market { items: DashMap<u32, OrderBook>, last_modified, expires }`. -/
structure Market where
  items : List (Nat × OrderBook)
  last_modified : Int
  expires : Int
deriving DecidableEq, Repr

/-- `Market::new()`. -/
def Market.new : Market :=
  ⟨[], 0, 0⟩

/-- `MarketDiff { new, modified: HashMap<u32, Vec<Order>>, removed: HashMap<u32, Vec<u64>> }`. -/
structure MarketDiff where
  new : List (Nat × List Order)
  modified : List (Nat × List Order)
  removed : List (Nat × List Nat)
deriving DecidableEq, Repr

/-- `MarketDiff::new()`. -/
def MarketDiff.empty : MarketDiff :=
  ⟨[], [], []⟩

/-- One iteration of `Market::delta`'s walk over the old orders of a type
present in both markets (market.rs lines 369-386): a surviving id with a
`PartialEq`-different value pushes the new value onto `modified[key]`; a
vanished id pushes the stored id onto `removed[key]`. -/
def deltaOldOrderStep (new_ordermap : List (Nat × Order)) (key : Nat) (d : MarketDiff)
    (old_order : Nat × Order) : MarketDiff :=
  match alookup new_ordermap old_order.1 with
  | some other_order =>
    if Order.beq other_order old_order.2 then d
    else { d with modified := apush d.modified key other_order }
  | none => { d with removed := apush d.removed key old_order.2.id }

/-- One iteration of `Market::delta`'s walk over the new orders of a type
present in both markets (market.rs lines 389-400): an id absent from the old
book lazily creates `new[item]` (checking presence under `key`) and pushes
the order onto `new[key]`. -/
def deltaNewOrderStep (oldOrders : List (Nat × Order)) (key itemField : Nat) (d : MarketDiff)
    (other_order : Nat × Order) : MarketDiff :=
  if (alookup oldOrders other_order.1).isSome then d
  else
    let d1 := if (alookup d.new key).isSome then d
              else { d with new := ainsert d.new itemField [] }
    { d1 with new := apush d1.new key other_order.2 }

/-- One iteration of `Market::delta`'s walk over the orders of a type that is
gone from the new market (market.rs lines 407-409): push the stored id onto
`removed[key]`. -/
def deltaGoneOrderStep (key : Nat) (d : MarketDiff) (removed_order : Nat × Order) : MarketDiff :=
  { d with removed := apush d.removed key removed_order.2.id }

/-- The body of `Market::delta`'s first loop for one entry of `self.items`
(market.rs lines 360-412): when the type also exists in `new_market`, create
its (possibly empty) `modified` and `removed` entries, walk the old orders,
then walk the new orders; when the type is gone, create its `removed` entry
and push every old order's id. -/
def deltaStep (new_market : Market) (diff : MarketDiff) (old_item : Nat × OrderBook) :
    MarketDiff :=
  match alookup new_market.items old_item.1 with
  | some new_orderbook =>
    let diff1 : MarketDiff :=
      { diff with
          modified := ainsert diff.modified old_item.2.item []
          removed := ainsert diff.removed old_item.2.item [] }
    let diff2 := old_item.2.orders.foldl
      (deltaOldOrderStep new_orderbook.orders old_item.1) diff1
    new_orderbook.orders.foldl
      (deltaNewOrderStep old_item.2.orders old_item.1 old_item.2.item) diff2
  | none =>
    let diff1 : MarketDiff := { diff with removed := ainsert diff.removed old_item.2.item [] }
    old_item.2.orders.foldl (deltaGoneOrderStep old_item.1) diff1

/-- The body of `Market::delta`'s second loop for one entry of
`new_market.items` (market.rs lines 415-422): a type absent from `self`
contributes all of its orders as `new`. -/
def deltaFinalStep (self : Market) (diff : MarketDiff) (item : Nat × OrderBook) : MarketDiff :=
  if (alookup self.items item.1).isSome then diff
  else { diff with new := ainsert diff.new item.2.item (item.2.orders.map (fun order => order.2)) }

/-- `Market::delta` (market.rs lines 356-425). -/
def Market.delta (self new_market : Market) : MarketDiff :=
  new_market.items.foldl (deltaFinalStep self)
    (self.items.foldl (deltaStep new_market) MarketDiff.empty)

/-! ### Pure per-type descriptions of the three diff lists -/

/-- The `modified` list `Market::delta` produces for a type present in both
markets: the new value of every old order whose id survives with a
`PartialEq`-different value, in old-book iteration order. -/
def modifiedOrders (oldOrders newOrders : List (Nat × Order)) : List Order :=
  oldOrders.filterMap (fun p =>
    match alookup newOrders p.1 with
    | some w => if Order.beq w p.2 then none else some w
    | none => none)

/-- The `removed` list `Market::delta` produces for a type present in both
markets: the stored id of every old order whose key is gone from the new
book, in old-book iteration order. -/
def removedIds (oldOrders newOrders : List (Nat × Order)) : List Nat :=
  (oldOrders.filter (fun p => (alookup newOrders p.1).isNone)).map (fun p => p.2.id)

/-- The `new` list `Market::delta` produces for a type present in both
markets: the orders of the new book whose keys are absent from the old book,
in new-book iteration order. -/
def newOrders (oldOrders newOrders : List (Nat × Order)) : List Order :=
  (newOrders.filter (fun p => !(alookup oldOrders p.1).isSome)).map (fun p => p.2)

theorem foldl_deltaOldOrderStep (nbo : List (Nat × Order)) (k : Nat)
    (os : List (Nat × Order)) (N : List (Nat × List Order)) (M : List (Nat × List Order))
    (R : List (Nat × List Nat)) (ml : List Order) (rl : List Nat)
    (hM : k ∉ akeys M) (hR : k ∉ akeys R) :
    os.foldl (deltaOldOrderStep nbo k) ⟨N, M ++ [(k, ml)], R ++ [(k, rl)]⟩ =
      ⟨N, M ++ [(k, ml ++ modifiedOrders os nbo)], R ++ [(k, rl ++ removedIds os nbo)]⟩ := by
  induction os generalizing ml rl with
  | nil => simp [modifiedOrders, removedIds]
  | cons p rest ih =>
    simp only [List.foldl_cons]
    cases h : alookup nbo p.1 with
    | some w =>
      by_cases hb : Order.beq w p.2
      · rw [show deltaOldOrderStep nbo k ⟨N, M ++ [(k, ml)], R ++ [(k, rl)]⟩ p =
            ⟨N, M ++ [(k, ml)], R ++ [(k, rl)]⟩ by simp [deltaOldOrderStep, h, hb]]
        rw [ih ml rl]
        simp [modifiedOrders, removedIds, h, hb]
    
      · rw [show deltaOldOrderStep nbo k ⟨N, M ++ [(k, ml)], R ++ [(k, rl)]⟩ p =
            ⟨N, M ++ [(k, ml ++ [w])], R ++ [(k, rl)]⟩ by
          simp [deltaOldOrderStep, h, hb, apush_append_last _ _ hM]]
        rw [ih (ml ++ [w]) rl]
        simp [modifiedOrders, removedIds, h, hb]
    | none =>
      rw [show deltaOldOrderStep nbo k ⟨N, M ++ [(k, ml)], R ++ [(k, rl)]⟩ p =
          ⟨N, M ++ [(k, ml)], R ++ [(k, rl ++ [p.2.id])]⟩ by
        simp [deltaOldOrderStep, h, apush_append_last _ _ hR]]
      rw [ih ml (rl ++ [p.2.id])]
      simp [modifiedOrders, removedIds, h]

theorem newOrders_cons_skip {oldo : List (Nat × Order)} {p : Nat × Order}
    (rest : List (Nat × Order)) (h : (alookup oldo p.1).isSome = true) :
    newOrders oldo (p :: rest) = newOrders oldo rest := by
  have hne : ¬ alookup oldo p.1 = none := by
    intro hc
    rw [hc] at h
    simp at h
  simp [newOrders, List.filter_cons, h, hne]

theorem newOrders_cons_new {oldo : List (Nat × Order)} {p : Nat × Order}
    (rest : List (Nat × Order)) (h : (alookup oldo p.1).isSome = false) :
    newOrders oldo (p :: rest) = p.2 :: newOrders oldo rest := by
  have he : alookup oldo p.1 = none := by
    cases hc : alookup oldo p.1 with
    | none => rfl
    | some w => rw [hc] at h; simp at h
  simp [newOrders, List.filter_cons, h, he]

theorem foldl_deltaNewOrderStep_present (oldo : List (Nat × Order)) (k itf : Nat)
    (os : List (Nat × Order)) (N : List (Nat × List Order)) (M : List (Nat × List Order))
    (R : List (Nat × List Nat)) (nl : List Order) (hN : k ∉ akeys N) :
    os.foldl (deltaNewOrderStep oldo k itf) ⟨N ++ [(k, nl)], M, R⟩ =
      ⟨N ++ [(k, nl ++ newOrders oldo os)], M, R⟩ := by
  induction os generalizing nl with
  | nil => simp [newOrders]
  | cons p rest ih =>
    simp only [List.foldl_cons]
    cases h : (alookup oldo p.1).isSome with
    | true =>
      rw [show deltaNewOrderStep oldo k itf ⟨N ++ [(k, nl)], M, R⟩ p =
          ⟨N ++ [(k, nl)], M, R⟩ by simp [deltaNewOrderStep, h]]
      rw [ih nl, newOrders_cons_skip rest h]
    | false =>
      have hpresent : (alookup (N ++ [(k, nl)]) k).isSome = true := by
        rw [alookup_append, (alookup_eq_none_iff N k).mpr hN]
        simp [Option.or]
      rw [show deltaNewOrderStep oldo k itf ⟨N ++ [(k, nl)], M, R⟩ p =
          ⟨N ++ [(k, nl ++ [p.2])], M, R⟩ by
        simp [deltaNewOrderStep, h, hpresent, apush_append_last _ _ hN]]
      rw [ih (nl ++ [p.2]), newOrders_cons_new rest h]
      simp

theorem foldl_deltaNewOrderStep_absent (oldo : List (Nat × Order)) (k : Nat)
    (os : List (Nat × Order)) (N : List (Nat × List Order)) (M : List (Nat × List Order))
    (R : List (Nat × List Nat)) (hN : k ∉ akeys N) :
    os.foldl (deltaNewOrderStep oldo k k) ⟨N, M, R⟩ =
      ⟨N ++ (if newOrders oldo os = [] then [] else [(k, newOrders oldo os)]), M, R⟩ := by
  induction os with
  | nil => simp [newOrders]
  | cons p rest ih =>
    simp only [List.foldl_cons]
    cases h : (alookup oldo p.1).isSome with
    | true =>
      rw [show deltaNewOrderStep oldo k k ⟨N, M, R⟩ p = ⟨N, M, R⟩ by
        simp [deltaNewOrderStep, h]]
      rw [ih, newOrders_cons_skip rest h]
    | false =>
      have habsent : alookup N k = none := (alookup_eq_none_iff N k).mpr hN
      rw [show deltaNewOrderStep oldo k k ⟨N, M, R⟩ p = ⟨N ++ [(k, [p.2])], M, R⟩ by
        simp [deltaNewOrderStep, h, habsent, ainsert_of_not_mem _ hN,
          apush_append_last _ _ hN]]
      rw [foldl_deltaNewOrderStep_present oldo k k rest N M R [p.2] hN,
        newOrders_cons_new rest h]
      simp

theorem foldl_deltaGoneOrderStep (k : Nat) (os : List (Nat × Order))
    (N : List (Nat × List Order)) (M : List (Nat × List Order))
    (R : List (Nat × List Nat)) (rl : List Nat) (hR : k ∉ akeys R) :
    os.foldl (deltaGoneOrderStep k) ⟨N, M, R ++ [(k, rl)]⟩ =
      ⟨N, M, R ++ [(k, rl ++ os.map (fun p => p.2.id))]⟩ := by
  induction os generalizing rl with
  | nil => simp
  | cons p rest ih =>
    simp only [List.foldl_cons]
    rw [show deltaGoneOrderStep k ⟨N, M, R ++ [(k, rl)]⟩ p =
        ⟨N, M, R ++ [(k, rl ++ [p.2.id])]⟩ by
      simp [deltaGoneOrderStep, apush_append_last _ _ hR]]
    rw [ih (rl ++ [p.2.id])]
    simp

theorem deltaStep_spec (new_market : Market) (diff : MarketDiff) (k : Nat) (b : OrderBook)
    (hitem : b.item = k) (hN : k ∉ akeys diff.new) (hM : k ∉ akeys diff.modified)
    (hR : k ∉ akeys diff.removed) :
    deltaStep new_market diff (k, b) =
      match alookup new_market.items k with
      | some nb =>
        ⟨diff.new ++ (if newOrders b.orders nb.orders = [] then []
            else [(k, newOrders b.orders nb.orders)]),
         diff.modified ++ [(k, modifiedOrders b.orders nb.orders)],
         diff.removed ++ [(k, removedIds b.orders nb.orders)]⟩
      | none => ⟨diff.new, diff.modified, diff.removed ++ [(k, b.orders.map (fun p => p.2.id))]⟩ := by
  unfold deltaStep
  cases halo : alookup new_market.items k with
  | some nb =>
    simp only [hitem]
    rw [show ({ diff with
          modified := ainsert diff.modified k []
          removed := ainsert diff.removed k [] } : MarketDiff) =
        ⟨diff.new, diff.modified ++ [(k, [])], diff.removed ++ [(k, [])]⟩ by
      rw [ainsert_of_not_mem _ hM, ainsert_of_not_mem _ hR]]
    rw [foldl_deltaOldOrderStep nb.orders k b.orders diff.new diff.modified diff.removed
      [] [] hM hR]
    simp only [List.nil_append]
    rw [foldl_deltaNewOrderStep_absent b.orders k nb.orders diff.new
      (diff.modified ++ [(k, modifiedOrders b.orders nb.orders)])
      (diff.removed ++ [(k, removedIds b.orders nb.orders)]) hN]
  | none =>
    simp only [hitem]
    rw [show ({ diff with removed := ainsert diff.removed k [] } : MarketDiff) =
        ⟨diff.new, diff.modified, diff.removed ++ [(k, [])]⟩ by
      rw [ainsert_of_not_mem _ hR]]
    rw [foldl_deltaGoneOrderStep k b.orders diff.new diff.modified diff.removed [] hR]
    simp

/-- The contribution of `Market::delta`'s first loop to `diff.modified`:
one (possibly empty) entry per type present in both markets. -/
def deltaMods (next : Market) (items : List (Nat × OrderBook)) : List (Nat × List Order) :=
  items.filterMap (fun it =>
    (alookup next.items it.1).map (fun nb => (it.1, modifiedOrders it.2.orders nb.orders)))

/-- The contribution of `Market::delta`'s first loop to `diff.removed`:
one entry per type of the old market. -/
def deltaRems (next : Market) (items : List (Nat × OrderBook)) : List (Nat × List Nat) :=
  items.map (fun it =>
    match alookup next.items it.1 with
    | some nb => (it.1, removedIds it.2.orders nb.orders)
    | none => (it.1, it.2.orders.map (fun p => p.2.id)))

/-- The contribution of `Market::delta`'s first loop to `diff.new`: a lazily
created entry per type present in both markets with at least one new order. -/
def deltaNews1 (next : Market) (items : List (Nat × OrderBook)) : List (Nat × List Order) :=
  items.filterMap (fun it =>
    match alookup next.items it.1 with
    | some nb =>
      if newOrders it.2.orders nb.orders = [] then none
      else some (it.1, newOrders it.2.orders nb.orders)
    | none => none)

/-- The contribution of `Market::delta`'s second loop to `diff.new`: one
entry per type present only in the new market, holding all its orders. -/
def deltaNews2 (self : Market) (items : List (Nat × OrderBook)) : List (Nat × List Order) :=
  (items.filter (fun it => !(alookup self.items it.1).isSome)).map
    (fun it => (it.1, it.2.orders.map (fun order => order.2)))

theorem not_mem_akeys_append_single {α : Type} {m : List (Nat × α)} {x k : Nat} (v : α)
    (h1 : x ∉ akeys m) (h2 : ¬ x = k) : x ∉ akeys (m ++ [(k, v)]) := by
  rw [akeys_append]
  intro hc
  rcases List.mem_append.mp hc with hc1 | hc2
  · exact h1 hc1
  · simp [akeys] at hc2
    exact h2 hc2

theorem deltaMods_cons_some {next : Market} {k : Nat} {nb : OrderBook} (b : OrderBook)
    (rest : List (Nat × OrderBook)) (halo : alookup next.items k = some nb) :
    deltaMods next ((k, b) :: rest) =
      (k, modifiedOrders b.orders nb.orders) :: deltaMods next rest := by
  simp [deltaMods, List.filterMap_cons, halo]

theorem deltaMods_cons_none {next : Market} {k : Nat} (b : OrderBook)
    (rest : List (Nat × OrderBook)) (halo : alookup next.items k = none) :
    deltaMods next ((k, b) :: rest) = deltaMods next rest := by
  simp [deltaMods, List.filterMap_cons, halo]

theorem deltaRems_cons_some {next : Market} {k : Nat} {nb : OrderBook} (b : OrderBook)
    (rest : List (Nat × OrderBook)) (halo : alookup next.items k = some nb) :
    deltaRems next ((k, b) :: rest) =
      (k, removedIds b.orders nb.orders) :: deltaRems next rest := by
  simp [deltaRems, halo]

theorem deltaRems_cons_none {next : Market} {k : Nat} (b : OrderBook)
    (rest : List (Nat × OrderBook)) (halo : alookup next.items k = none) :
    deltaRems next ((k, b) :: rest) =
      (k, b.orders.map (fun p => p.2.id)) :: deltaRems next rest := by
  simp [deltaRems, halo]

theorem deltaNews1_cons_some_empty {next : Market} {k : Nat} {nb : OrderBook} (b : OrderBook)
    (rest : List (Nat × OrderBook)) (halo : alookup next.items k = some nb)
    (hemp : newOrders b.orders nb.orders = []) :
    deltaNews1 next ((k, b) :: rest) = deltaNews1 next rest := by
  simp [deltaNews1, List.filterMap_cons, halo, hemp]

theorem deltaNews1_cons_some_nonempty {next : Market} {k : Nat} {nb : OrderBook} (b : OrderBook)
    (rest : List (Nat × OrderBook)) (halo : alookup next.items k = some nb)
    (hemp : ¬ newOrders b.orders nb.orders = []) :
    deltaNews1 next ((k, b) :: rest) =
      (k, newOrders b.orders nb.orders) :: deltaNews1 next rest := by
  simp [deltaNews1, List.filterMap_cons, halo, hemp]

theorem deltaNews1_cons_none {next : Market} {k : Nat} (b : OrderBook)
    (rest : List (Nat × OrderBook)) (halo : alookup next.items k = none) :
    deltaNews1 next ((k, b) :: rest) = deltaNews1 next rest := by
  simp [deltaNews1, List.filterMap_cons, halo]

theorem foldl_deltaStep_spec (next : Market) (items : List (Nat × OrderBook))
    (diff : MarketDiff)
    (hwf : ∀ p ∈ items, p.2.item = p.1)
    (hnd : (akeys items).Nodup)
    (hdisj : ∀ x ∈ akeys items,
      x ∉ akeys diff.new ∧ x ∉ akeys diff.modified ∧ x ∉ akeys diff.removed) :
    items.foldl (deltaStep next) diff =
      ⟨diff.new ++ deltaNews1 next items, diff.modified ++ deltaMods next items,
       diff.removed ++ deltaRems next items⟩ := by
  induction items generalizing diff with
  | nil => simp [deltaNews1, deltaMods, deltaRems]
  | cons p rest ih =>
    obtain ⟨k, b⟩ := p
    have hk : k ∈ akeys ((k, b) :: rest) := by simp [akeys]
    obtain ⟨hdN, hdM, hdR⟩ := hdisj k hk
    have hitem : b.item = k := hwf (k, b) (List.mem_cons_self _ _)
    have hndrest : (akeys rest).Nodup := by
      simp only [akeys, List.map_cons, List.nodup_cons] at hnd
      exact hnd.2
    have hknotrest : k ∉ akeys rest := by
      simp only [akeys, List.map_cons, List.nodup_cons] at hnd
      exact hnd.1
    have hwfrest : ∀ q ∈ rest, q.2.item = q.1 := fun q hq => hwf q (List.mem_cons_of_mem _ hq)
    have hmemrest : ∀ x ∈ akeys rest, x ∈ akeys ((k, b) :: rest) := by
      intro x hx
      simp only [akeys, List.map_cons, List.mem_cons]
      right
      exact hx
    simp only [List.foldl_cons]
    rw [deltaStep_spec next diff k b hitem hdN hdM hdR]
    cases halo : alookup next.items k with
    | some nb =>
      simp only
      by_cases hemp : newOrders b.orders nb.orders = []
      · rw [if_pos hemp]
        rw [ih ⟨diff.new ++ [], diff.modified ++ [(k, modifiedOrders b.orders nb.orders)],
            diff.removed ++ [(k, removedIds b.orders nb.orders)]⟩ hwfrest hndrest
          (by
            intro x hx
            have hxk : ¬ x = k := fun hc => hknotrest (hc ▸ hx)
            obtain ⟨h1, h2, h3⟩ := hdisj x (hmemrest x hx)
            exact ⟨by simpa using h1, not_mem_akeys_append_single _ h2 hxk,
              not_mem_akeys_append_single _ h3 hxk⟩)]
        rw [deltaNews1_cons_some_empty b rest halo hemp,
          deltaMods_cons_some b rest halo, deltaRems_cons_some b rest halo]
        simp
      · rw [if_neg hemp]
        rw [ih ⟨diff.new ++ [(k, newOrders b.orders nb.orders)],
            diff.modified ++ [(k, modifiedOrders b.orders nb.orders)],
            diff.removed ++ [(k, removedIds b.orders nb.orders)]⟩ hwfrest hndrest
          (by
            intro x hx
            have hxk : ¬ x = k := fun hc => hknotrest (hc ▸ hx)
            obtain ⟨h1, h2, h3⟩ := hdisj x (hmemrest x hx)
            exact ⟨not_mem_akeys_append_single _ h1 hxk,
              not_mem_akeys_append_single _ h2 hxk,
              not_mem_akeys_append_single _ h3 hxk⟩)]
        rw [deltaNews1_cons_some_nonempty b rest halo hemp,
          deltaMods_cons_some b rest halo, deltaRems_cons_some b rest halo]
        simp
    | none =>
      simp only
      rw [ih ⟨diff.new, diff.modified,
          diff.removed ++ [(k, b.orders.map (fun p => p.2.id))]⟩ hwfrest hndrest
        (by
          intro x hx
          have hxk : ¬ x = k := fun hc => hknotrest (hc ▸ hx)
          obtain ⟨h1, h2, h3⟩ := hdisj x (hmemrest x hx)
          exact ⟨h1, h2, not_mem_akeys_append_single _ h3 hxk⟩)]
      rw [deltaNews1_cons_none b rest halo, deltaMods_cons_none b rest halo,
        deltaRems_cons_none b rest halo]
      simp

theorem deltaNews2_cons_present {self : Market} {k : Nat} (b : OrderBook)
    (rest : List (Nat × OrderBook)) (h : (alookup self.items k).isSome = true) :
    deltaNews2 self ((k, b) :: rest) = deltaNews2 self rest := by
  have hne : ¬ alookup self.items k = none := by
    intro hc
    rw [hc] at h
    simp at h
  simp [deltaNews2, List.filter_cons, h, hne]

theorem deltaNews2_cons_absent {self : Market} {k : Nat} (b : OrderBook)
    (rest : List (Nat × OrderBook)) (h : (alookup self.items k).isSome = false) :
    deltaNews2 self ((k, b) :: rest) =
      (k, b.orders.map (fun order => order.2)) :: deltaNews2 self rest := by
  have he : alookup self.items k = none := by
    cases hc : alookup self.items k with
    | none => rfl
    | some w => rw [hc] at h; simp at h
  simp [deltaNews2, List.filter_cons, h, he]

theorem foldl_deltaFinalStep_spec (self : Market) (items : List (Nat × OrderBook))
    (diff : MarketDiff)
    (hwf : ∀ p ∈ items, p.2.item = p.1)
    (hnd : (akeys items).Nodup)
    (hdisj : ∀ x ∈ akeys items, (alookup self.items x).isSome = false → x ∉ akeys diff.new) :
    items.foldl (deltaFinalStep self) diff =
      ⟨diff.new ++ deltaNews2 self items, diff.modified, diff.removed⟩ := by
  induction items generalizing diff with
  | nil => simp [deltaNews2]
  | cons p rest ih =>
    obtain ⟨k, b⟩ := p
    have hitem : b.item = k := hwf (k, b) (List.mem_cons_self _ _)
    have hndrest : (akeys rest).Nodup := by
      simp only [akeys, List.map_cons, List.nodup_cons] at hnd
      exact hnd.2
    have hknotrest : k ∉ akeys rest := by
      simp only [akeys, List.map_cons, List.nodup_cons] at hnd
      exact hnd.1
    have hwfrest : ∀ q ∈ rest, q.2.item = q.1 := fun q hq => hwf q (List.mem_cons_of_mem _ hq)
    have hmemrest : ∀ x ∈ akeys rest, x ∈ akeys ((k, b) :: rest) := by
      intro x hx
      simp only [akeys, List.map_cons, List.mem_cons]
      right
      exact hx
    simp only [List.foldl_cons]
    cases hself : (alookup self.items k).isSome with
    | true =>
      rw [show deltaFinalStep self diff (k, b) = diff by simp [deltaFinalStep, hself]]
      rw [ih diff hwfrest hndrest
        (fun x hx hab => hdisj x (hmemrest x hx) hab)]
      rw [deltaNews2_cons_present b rest hself]
    | false =>
      have hkd : k ∉ akeys diff.new := hdisj k (by simp [akeys]) hself
      rw [show deltaFinalStep self diff (k, b) =
          ⟨diff.new ++ [(k, b.orders.map (fun order => order.2))],
           diff.modified, diff.removed⟩ by
        simp only [deltaFinalStep, hself, Bool.false_eq_true, if_false, hitem]
        rw [ainsert_of_not_mem _ hkd]]
      rw [ih ⟨diff.new ++ [(k, b.orders.map (fun order => order.2))],
          diff.modified, diff.removed⟩ hwfrest hndrest
        (by
          intro x hx hab
          have hxk : ¬ x = k := fun hc => hknotrest (hc ▸ hx)
          exact not_mem_akeys_append_single _ (hdisj x (hmemrest x hx) hab) hxk)]
      rw [deltaNews2_cons_absent b rest hself]
      simp

/-- Pointwise well-formedness of one `items` entry: the `OrderBook.item`
field equals the map key (true at every construction site), the inner order
map has no duplicate keys, and every stored order's `id` field equals its
key (true at every insertion site: orders are always inserted under
`order.id`). -/
def EntryWF (p : Nat × OrderBook) : Prop :=
  p.2.item = p.1 ∧ (akeys p.2.orders).Nodup ∧ ∀ q ∈ p.2.orders, q.2.id = q.1

/-- Well-formedness of a `Market`, maintained by every constructor in the
sources: distinct type keys, matching `item` fields, distinct order keys,
matching `id` fields. -/
def Market.WF (m : Market) : Prop :=
  (akeys m.items).Nodup ∧ ∀ p ∈ m.items, EntryWF p

instance (p : Nat × OrderBook) : Decidable (EntryWF p) := by
  unfold EntryWF
  infer_instance

instance (m : Market) : Decidable m.WF := by
  unfold Market.WF
  infer_instance

/-- Full description of `Market::delta` on well-formed markets: the three
maps it builds, entry by entry. -/
theorem Market.delta_spec (prev next : Market) (hp : prev.WF) (hn : next.WF) :
    Market.delta prev next =
      ⟨deltaNews1 next prev.items ++ deltaNews2 prev next.items,
       deltaMods next prev.items, deltaRems next prev.items⟩ := by
  unfold Market.delta
  rw [foldl_deltaStep_spec next prev.items MarketDiff.empty
    (fun p hq => (hp.2 p hq).1) hp.1
    (by intro x hx; exact ⟨by simp [MarketDiff.empty, akeys], by simp [MarketDiff.empty, akeys],
      by simp [MarketDiff.empty, akeys]⟩)]
  have hn1sub : ∀ x, x ∈ akeys (deltaNews1 next prev.items) → x ∈ akeys prev.items := by
    intro x hx
    simp only [deltaNews1, akeys, List.mem_map] at hx ⊢
    obtain ⟨q, hq, hqx⟩ := hx
    rw [List.mem_filterMap] at hq
    obtain ⟨it, hit, hmatch⟩ := hq
    refine ⟨it, hit, ?_⟩
    cases h : alookup next.items it.1 with
    | some nb =>
      rw [h] at hmatch
      by_cases he : newOrders it.2.orders nb.orders = []
      · simp [he] at hmatch
      · simp [he] at hmatch
        rw [← hmatch] at hqx
        exact hqx
    | none => rw [h] at hmatch; simp at hmatch
  rw [foldl_deltaFinalStep_spec prev next.items
    ⟨MarketDiff.empty.new ++ deltaNews1 next prev.items,
     MarketDiff.empty.modified ++ deltaMods next prev.items,
     MarketDiff.empty.removed ++ deltaRems next prev.items⟩
    (fun p hq => (hn.2 p hq).1) hn.1
    (by
      intro x hx hab
      simp only [MarketDiff.empty, List.nil_append]
      intro hc
      have hxprev : x ∈ akeys prev.items := hn1sub x hc
      rw [← alookup_isSome_iff] at hxprev
      rw [hab] at hxprev
      simp at hxprev)]
  simp [MarketDiff.empty]

theorem alookup_deltaRems (next : Market) (items : List (Nat × OrderBook)) (t : Nat) :
    alookup (deltaRems next items) t =
      (alookup items t).map (fun b =>
        match alookup next.items t with
        | some nb => removedIds b.orders nb.orders
        | none => b.orders.map (fun p => p.2.id)) := by
  induction items with
  | nil => simp [deltaRems]
  | cons p rest ih =>
    obtain ⟨k, b⟩ := p
    by_cases hkt : k = t
    · subst hkt
      cases h : alookup next.items k with
      | some nb =>
        rw [deltaRems_cons_some b rest h]
        simp [h]
      | none =>
        rw [deltaRems_cons_none b rest h]
        simp [h]
    · cases h : alookup next.items k with
      | some nb =>
        rw [deltaRems_cons_some b rest h]
        simp [alookup_cons, hkt, ih]
      | none =>
        rw [deltaRems_cons_none b rest h]
        simp [alookup_cons, hkt, ih]

theorem alookup_deltaMods (next : Market) (items : List (Nat × OrderBook))
    (hnd : (akeys items).Nodup) (t : Nat) :
    alookup (deltaMods next items) t =
      (alookup items t).bind (fun b =>
        (alookup next.items t).map (fun nb => modifiedOrders b.orders nb.orders)) := by
  induction items with
  | nil => simp [deltaMods]
  | cons p rest ih =>
    obtain ⟨k, b⟩ := p
    have hndrest : (akeys rest).Nodup := by
      simp only [akeys, List.map_cons, List.nodup_cons] at hnd
      exact hnd.2
    have hknotrest : k ∉ akeys rest := by
      simp only [akeys, List.map_cons, List.nodup_cons] at hnd
      exact hnd.1
    by_cases hkt : k = t
    · subst hkt
      cases h : alookup next.items k with
      | some nb =>
        rw [deltaMods_cons_some b rest h]
        simp [h]
      | none =>
        rw [deltaMods_cons_none b rest h]
        rw [ih hndrest]
        rw [(alookup_eq_none_iff rest k).mpr hknotrest]
        simp [h]
    · cases h : alookup next.items k with
      | some nb =>
        rw [deltaMods_cons_some b rest h]
        simp only [alookup_cons, if_neg hkt, ih hndrest]
      | none =>
        rw [deltaMods_cons_none b rest h]
        simp only [alookup_cons, if_neg hkt, ih hndrest]

theorem alookup_deltaNews1 (next : Market) (items : List (Nat × OrderBook))
    (hnd : (akeys items).Nodup) (t : Nat) :
    alookup (deltaNews1 next items) t =
      (alookup items t).bind (fun b =>
        (alookup next.items t).bind (fun nb =>
          if newOrders b.orders nb.orders = [] then none
          else some (newOrders b.orders nb.orders))) := by
  induction items with
  | nil => simp [deltaNews1]
  | cons p rest ih =>
    obtain ⟨k, b⟩ := p
    have hndrest : (akeys rest).Nodup := by
      simp only [akeys, List.map_cons, List.nodup_cons] at hnd
      exact hnd.2
    have hknotrest : k ∉ akeys rest := by
      simp only [akeys, List.map_cons, List.nodup_cons] at hnd
      exact hnd.1
    by_cases hkt : k = t
    · subst hkt
      cases h : alookup next.items k with
      | some nb =>
        by_cases hemp : newOrders b.orders nb.orders = []
        · rw [deltaNews1_cons_some_empty b rest h hemp]
          rw [ih hndrest]
          rw [(alookup_eq_none_iff rest k).mpr hknotrest]
          simp [h, hemp]
        · rw [deltaNews1_cons_some_nonempty b rest h hemp]
          simp [h, hemp]
      | none =>
        rw [deltaNews1_cons_none b rest h]
        rw [ih hndrest]
        rw [(alookup_eq_none_iff rest k).mpr hknotrest]
        simp [h]
    · cases h : alookup next.items k with
      | some nb =>
        by_cases hemp : newOrders b.orders nb.orders = []
        · rw [deltaNews1_cons_some_empty b rest h hemp]
          simp only [alookup_cons, if_neg hkt, ih hndrest]
        · rw [deltaNews1_cons_some_nonempty b rest h hemp]
          simp only [alookup_cons, if_neg hkt, ih hndrest]
      | none =>
        rw [deltaNews1_cons_none b rest h]
        simp only [alookup_cons, if_neg hkt, ih hndrest]

theorem alookup_deltaNews2 (self : Market) (items : List (Nat × OrderBook)) (t : Nat) :
    alookup (deltaNews2 self items) t =
      if (alookup self.items t).isSome then none
      else (alookup items t).map (fun b => b.orders.map (fun order => order.2)) := by
  induction items with
  | nil => simp [deltaNews2]
  | cons p rest ih =>
    obtain ⟨k, b⟩ := p
    cases hself : (alookup self.items k).isSome with
    | true =>
      rw [deltaNews2_cons_present b rest hself]
      by_cases hkt : k = t
      · subst hkt
        rw [ih, hself]
        simp
      · rw [ih]
        simp only [alookup_cons, if_neg hkt]
    | false =>
      rw [deltaNews2_cons_absent b rest hself]
      by_cases hkt : k = t
      · subst hkt
        simp [hself]
      · simp only [alookup_cons, if_neg hkt, ih]

theorem beqComm {α : Type} [BEq α] [LawfulBEq α] (a b : α) : (a == b) = (b == a) := by
  by_cases h : a = b
  · simp [h]
  · have h2 : ¬ b = a := fun hc => h hc.symm
    simp [h, h2]

theorem F64.ieeeEq_symm (a b : F64) : F64.ieeeEq a b = F64.ieeeEq b a := by
  cases a <;> cases b <;> simp [F64.ieeeEq] <;> exact eq_comm

theorem Order.beq_symm (a b : Order) : Order.beq a b = Order.beq b a := by
  unfold Order.beq
  rw [F64.ieeeEq_symm]
  rw [beqComm a.id, beqComm a.is_buy_order, beqComm a.issued, beqComm a.expiry,
    beqComm a.location_id, beqComm a.system_id, beqComm a.min_volume,
    beqComm a.range, beqComm a.volume_remain, beqComm a.volume_total]

theorem modifiedOrders_ids_sub {old new : List (Nat × Order)}
    (hidn : ∀ q ∈ new, q.2.id = q.1) :
    ∀ o ∈ modifiedOrders old new, o.id ∈ akeys old := by
  intro o ho
  rw [modifiedOrders, List.mem_filterMap] at ho
  obtain ⟨p, hp, hm⟩ := ho
  cases h : alookup new p.1 with
  | none => rw [h] at hm; simp at hm
  | some w =>
    rw [h] at hm
    by_cases hb : Order.beq w p.2
    · simp [hb] at hm
    · simp [hb] at hm
      have hw : (p.1, w) ∈ new := mem_of_alookup_eq_some h
      have : w.id = p.1 := hidn (p.1, w) hw
      rw [← hm, this]
      exact List.mem_map_of_mem (fun q => q.1) hp

theorem newOrders_ids_sub {old new : List (Nat × Order)}
    (hidn : ∀ q ∈ new, q.2.id = q.1) :
    ∀ o ∈ newOrders old new, o.id ∈ akeys new := by
  intro o ho
  rw [newOrders, List.mem_map] at ho
  obtain ⟨p, hp, hm⟩ := ho
  have hpnew : p ∈ new := List.mem_of_mem_filter hp
  rw [← hm, hidn p hpnew]
  exact List.mem_map_of_mem (fun q => q.1) hpnew

theorem modifiedOrders_ids_nodup {old new : List (Nat × Order)}
    (hndo : (akeys old).Nodup) (hidn : ∀ q ∈ new, q.2.id = q.1) :
    ((modifiedOrders old new).map (fun o => o.id)).Nodup := by
  induction old with
  | nil => simp [modifiedOrders]
  | cons p rest ih =>
    have hndrest : (akeys rest).Nodup := by
      simp only [akeys, List.map_cons, List.nodup_cons] at hndo
      exact hndo.2
    have hknotrest : p.1 ∉ akeys rest := by
      simp only [akeys, List.map_cons, List.nodup_cons] at hndo
      exact hndo.1
    cases h : alookup new p.1 with
    | none => simpa [modifiedOrders, List.filterMap_cons, h] using ih hndrest
    | some w =>
      by_cases hb : Order.beq w p.2
      · simpa [modifiedOrders, List.filterMap_cons, h, hb] using ih hndrest
      · have hw : w.id = p.1 := hidn (p.1, w) (mem_of_alookup_eq_some h)
        have : modifiedOrders (p :: rest) new = w :: modifiedOrders rest new := by
          simp [modifiedOrders, List.filterMap_cons, h, hb]
        rw [this]
        simp only [List.map_cons, List.nodup_cons]
        refine ⟨?_, ih hndrest⟩
        intro hc
        rw [List.mem_map] at hc
        obtain ⟨o2, ho2, hid2⟩ := hc
        have : o2.id ∈ akeys rest := modifiedOrders_ids_sub hidn o2 ho2
        rw [hid2, hw] at this
        exact hknotrest this

theorem newOrders_ids_nodup {old new : List (Nat × Order)}
    (hndn : (akeys new).Nodup) (hidn : ∀ q ∈ new, q.2.id = q.1) :
    ((newOrders old new).map (fun o => o.id)).Nodup := by
  induction new with
  | nil => simp [newOrders]
  | cons p rest ih =>
    have hndrest : (akeys rest).Nodup := by
      simp only [akeys, List.map_cons, List.nodup_cons] at hndn
      exact hndn.2
    have hknotrest : p.1 ∉ akeys rest := by
      simp only [akeys, List.map_cons, List.nodup_cons] at hndn
      exact hndn.1
    have hidrest : ∀ q ∈ rest, q.2.id = q.1 := fun q hq => hidn q (List.mem_cons_of_mem _ hq)
    cases h : (alookup old p.1).isSome with
    | true => simpa [newOrders_cons_skip rest h] using ih hndrest hidrest
    | false =>
      rw [newOrders_cons_new rest h]
      simp only [List.map_cons, List.nodup_cons]
      refine ⟨?_, ih hndrest hidrest⟩
      intro hc
      rw [List.mem_map] at hc
      obtain ⟨o2, ho2, hid2⟩ := hc
      have : o2.id ∈ akeys rest := newOrders_ids_sub hidrest o2 ho2
      rw [hid2, hidn p (List.mem_cons_self _ _)] at this
      exact hknotrest this

theorem removedIds_mem_iff {old new : List (Nat × Order)}
    (hido : ∀ q ∈ old, q.2.id = q.1) (x : Nat) :
    x ∈ removedIds old new ↔ ((alookup old x).isSome ∧ alookup new x = none) := by
  constructor
  · intro hx
    rw [removedIds, List.mem_map] at hx
    obtain ⟨p, hp, hid⟩ := hx
    rw [List.mem_filter] at hp
    have hkey : p.2.id = p.1 := hido p hp.1
    rw [← hid, hkey]
    constructor
    · rw [alookup_isSome_iff]
      exact List.mem_map_of_mem (fun q => q.1) hp.1
    · have := hp.2
      simp only [Option.isNone_iff_eq_none] at this
      exact this
  · rintro ⟨h1, h2⟩
    obtain ⟨po, hpo⟩ := Option.isSome_iff_exists.mp h1
    have hmem : (x, po) ∈ old := mem_of_alookup_eq_some hpo
    rw [removedIds, List.mem_map]
    refine ⟨(x, po), ?_, hido (x, po) hmem⟩
    rw [List.mem_filter]
    exact ⟨hmem, by simp [h2]⟩

theorem removedIds_nodup {old new : List (Nat × Order)}
    (hndo : (akeys old).Nodup) (hido : ∀ q ∈ old, q.2.id = q.1) :
    (removedIds old new).Nodup := by
  have heq : removedIds old new =
      (old.filter (fun p => (alookup new p.1).isNone)).map (fun p => p.1) := by
    rw [removedIds]
    apply List.map_congr_left
    intro p hp
    exact hido p (List.mem_of_mem_filter hp)
  rw [heq]
  have hsub : ((old.filter (fun p => (alookup new p.1).isNone)).map (fun p => p.1)).Sublist
      (old.map (fun p => p.1)) := (List.filter_sublist old).map (fun p => p.1)
  have hnd2 : (old.map (fun p => p.1)).Nodup := hndo
  exact hnd2.sublist hsub

theorem mem_modifiedOrders {old new : List (Nat × Order)}
    (hndo : (akeys old).Nodup) (hidn : ∀ q ∈ new, q.2.id = q.1) :
    ∀ o ∈ modifiedOrders old new, ∃ po,
      alookup old o.id = some po ∧ alookup new o.id = some o ∧ Order.beq o po = false := by
  intro o ho
  rw [modifiedOrders, List.mem_filterMap] at ho
  obtain ⟨p, hp, hm⟩ := ho
  cases h : alookup new p.1 with
  | none => rw [h] at hm; simp at hm
  | some w =>
    rw [h] at hm
    by_cases hb : Order.beq w p.2
    · simp [hb] at hm
    · simp [hb] at hm
      have hw : o.id = p.1 := by
        rw [← hm]
        exact hidn (p.1, w) (mem_of_alookup_eq_some h)
      refine ⟨p.2, ?_, ?_, ?_⟩
      · rw [hw]
        exact alookup_eq_some_of_mem hndo (by
          have hpp : (p.1, p.2) = p := rfl
          rw [hpp]
          exact hp)
      · rw [hw, ← hm]
        exact h
      · rw [← hm]
        simpa using hb

theorem mem_newOrders {old new : List (Nat × Order)}
    (hndn : (akeys new).Nodup) (hidn : ∀ q ∈ new, q.2.id = q.1) :
    ∀ o ∈ newOrders old new, alookup new o.id = some o ∧ alookup old o.id = none := by
  intro o ho
  rw [newOrders, List.mem_map] at ho
  obtain ⟨p, hp, hm⟩ := ho
  rw [List.mem_filter] at hp
  subst hm
  have hw : p.2.id = p.1 := hidn p hp.1
  constructor
  · rw [hw]
    exact alookup_eq_some_of_mem hndn (by
      have : (p.1, p.2) = p := rfl
      rw [this]
      exact hp.1)
  · rw [hw]
    have := hp.2
    simp only [Bool.not_eq_true'] at this
    cases hc : alookup old p.1 with
    | none => rfl
    | some w => rw [hc] at this; simp at this


theorem newOrders_find {old new : List (Nat × Order)}
    (hndn : (akeys new).Nodup) (hidn : ∀ q ∈ new, q.2.id = q.1) (oid : Nat) :
    (newOrders old new).find? (fun o => o.id == oid) =
      match alookup old oid, alookup new oid with
      | none, some w => some w
      | _, _ => none := by
  induction new with
  | nil =>
    simp only [newOrders, List.filter_nil, List.map_nil, List.find?_nil, alookup_nil]
    cases alookup old oid <;> rfl
  | cons p rest ih =>
    have hndrest : (akeys rest).Nodup := by
      simp only [akeys, List.map_cons, List.nodup_cons] at hndn
      exact hndn.2
    have hknotrest : p.1 ∉ akeys rest := by
      simp only [akeys, List.map_cons, List.nodup_cons] at hndn
      exact hndn.1
    have hidrest : ∀ q ∈ rest, q.2.id = q.1 := fun q hq => hidn q (List.mem_cons_of_mem _ hq)
    have hpid : p.2.id = p.1 := hidn p (List.mem_cons_self _ _)
    have hrestnone : alookup rest p.1 = none := (alookup_eq_none_iff rest p.1).mpr hknotrest
    cases h : (alookup old p.1).isSome with
    | true =>
      rw [newOrders_cons_skip rest h]
      by_cases hkt : p.1 = oid
      · subst hkt
        have hnone : (newOrders old rest).find? (fun o => o.id == p.1) = none := by
          rw [List.find?_eq_none]
          intro x hx
          have hxk : x.id ∈ akeys rest := newOrders_ids_sub hidrest x hx
          simp only [beq_iff_eq]
          intro hc
          rw [hc] at hxk
          exact hknotrest hxk
        rw [ih hndrest hidrest, hrestnone]
        obtain ⟨w, hw⟩ := Option.isSome_iff_exists.mp h
        rw [hw]
      · rw [ih hndrest hidrest]
        simp only [alookup_cons, if_neg hkt]
    | false =>
      have holdnone : alookup old p.1 = none := by
        cases hc : alookup old p.1 with
        | none => rfl
        | some w => rw [hc] at h; simp at h
      rw [newOrders_cons_new rest h]
      by_cases hkt : p.1 = oid
      · subst hkt
        rw [List.find?_cons, show (p.2.id == p.1) = true by simp [hpid]]
        simp [holdnone]
      · rw [List.find?_cons, show (p.2.id == oid) = false by
          simp [hpid]
          exact hkt]
        rw [ih hndrest hidrest]
        simp only [alookup_cons, if_neg hkt]

theorem modifiedOrders_find {old new : List (Nat × Order)}
    (hndo : (akeys old).Nodup) (hidn : ∀ q ∈ new, q.2.id = q.1) (oid : Nat) :
    (modifiedOrders old new).find? (fun o => o.id == oid) =
      match alookup old oid, alookup new oid with
      | some po, some w => if Order.beq w po then none else some w
      | _, _ => none := by
  induction old with
  | nil =>
    simp only [modifiedOrders, List.filterMap_nil, List.find?_nil, alookup_nil]
  | cons p rest ih =>
    have hndrest : (akeys rest).Nodup := by
      simp only [akeys, List.map_cons, List.nodup_cons] at hndo
      exact hndo.2
    have hknotrest : p.1 ∉ akeys rest := by
      simp only [akeys, List.map_cons, List.nodup_cons] at hndo
      exact hndo.1
    have hrestnone : alookup rest p.1 = none := (alookup_eq_none_iff rest p.1).mpr hknotrest
    cases h : alookup new p.1 with
    | none =>
      have hcons : modifiedOrders (p :: rest) new = modifiedOrders rest new := by
        simp [modifiedOrders, List.filterMap_cons, h]
      rw [hcons]
      by_cases hkt : p.1 = oid
      · subst hkt
        have hnone : (modifiedOrders rest new).find? (fun o => o.id == p.1) = none := by
          rw [List.find?_eq_none]
          intro x hx
          have hxk : x.id ∈ akeys rest := modifiedOrders_ids_sub hidn x hx
          simp only [beq_iff_eq]
          intro hc
          rw [hc] at hxk
          exact hknotrest hxk
        rw [ih hndrest, hrestnone]
        simp [h]
      · rw [ih hndrest]
        simp only [alookup_cons, if_neg hkt]
    | some w =>
      have hwid : w.id = p.1 := hidn (p.1, w) (mem_of_alookup_eq_some h)
      by_cases hb : Order.beq w p.2
      · have hcons : modifiedOrders (p :: rest) new = modifiedOrders rest new := by
          simp [modifiedOrders, List.filterMap_cons, h, hb]
        rw [hcons]
        by_cases hkt : p.1 = oid
        · subst hkt
          have hnone : (modifiedOrders rest new).find? (fun o => o.id == p.1) = none := by
            rw [List.find?_eq_none]
            intro x hx
            have hxk : x.id ∈ akeys rest := modifiedOrders_ids_sub hidn x hx
            simp only [beq_iff_eq]
            intro hc
            rw [hc] at hxk
            exact hknotrest hxk
          rw [ih hndrest, hrestnone]
          simp [h, hb]
        · rw [ih hndrest]
          simp only [alookup_cons, if_neg hkt]
      · have hcons : modifiedOrders (p :: rest) new = w :: modifiedOrders rest new := by
          simp [modifiedOrders, List.filterMap_cons, h, hb]
        rw [hcons]
        by_cases hkt : p.1 = oid
        · subst hkt
          rw [List.find?_cons, show (w.id == p.1) = true by simp [hwid]]
          simp only [alookup_cons, if_pos rfl]
          rw [h]
          simp [hb]
        · rw [List.find?_cons, show (w.id == oid) = false by
            simp [hwid]
            exact hkt]
          rw [ih hndrest]
          simp only [alookup_cons, if_neg hkt]

theorem alookup_foldl_aremove {α : Type} (ids : List Nat) (os0 : List (Nat × α)) (oid : Nat) :
    alookup (ids.foldl (fun os k => aremove os k) os0) oid =
      if oid ∈ ids then none else alookup os0 oid := by
  induction ids generalizing os0 with
  | nil => simp
  | cons k rest ih =>
    simp only [List.foldl_cons]
    rw [ih]
    by_cases h : oid ∈ rest
    · simp [h]
    · rw [alookup_aremove]
      by_cases hk : k = oid
      · simp [hk, h]
      · have hk2 : ¬ oid = k := fun hc => hk hc.symm
        simp [h, hk, hk2]

theorem alookup_foldl_insertOrder (orders : List Order)
    (hnd : (orders.map (fun o => o.id)).Nodup) (os0 : List (Nat × Order)) (oid : Nat) :
    alookup (orders.foldl (fun os o => ainsert os o.id o) os0) oid =
      match orders.find? (fun o => o.id == oid) with
      | some o => some o
      | none => alookup os0 oid := by
  induction orders generalizing os0 with
  | nil => simp
  | cons o rest ih =>
    have hnd2 : (rest.map (fun o2 => o2.id)).Nodup := by
      simp only [List.map_cons, List.nodup_cons] at hnd
      exact hnd.2
    have hnotin : o.id ∉ rest.map (fun o2 => o2.id) := by
      simp only [List.map_cons, List.nodup_cons] at hnd
      exact hnd.1
    simp only [List.foldl_cons]
    rw [ih hnd2]
    by_cases h : o.id = oid
    · have hfr : rest.find? (fun o2 => o2.id == oid) = none := by
        rw [List.find?_eq_none]
        intro x hx
        simp only [beq_iff_eq]
        intro hc
        apply hnotin
        rw [List.mem_map]
        exact ⟨x, hx, by rw [hc, ← h]⟩
      rw [hfr, List.find?_cons, show (o.id == oid) = true by simp [h]]
      rw [alookup_ainsert]
      simp [h]
    · rw [List.find?_cons, show (o.id == oid) = false by
        simp
        exact h]
      cases hf : rest.find? (fun o2 => o2.id == oid) with
      | some w => simp
      | none =>
        simp only
        rw [alookup_ainsert, if_neg h]

/-! ### The book applicator's diff application (data_fetcher lib.rs lines 112-157) -/

/-- The removed-orders pass of `update_market_data` (lib.rs lines 113-121):
for each `(item_type, ids)` entry of `diff.removed`, if the book has that
type, drop every listed id from its order map. -/
def applyRemoved (items : List (Nat × OrderBook)) (removed : List (Nat × List Nat)) :
    List (Nat × OrderBook) :=
  removed.foldl (fun its p =>
    if (alookup its p.1).isSome then
      amodify its p.1 (fun b =>
        { b with orders := p.2.foldl (fun os oid => aremove os oid) b.orders })
    else its) items

/-- The new-orders and modified-orders passes of `update_market_data`
(lib.rs lines 124-139 and 142-157, which are textually identical): for each
`(item_type, orders)` entry, create the type's `OrderBook` when absent, then
insert every listed order under its `id`. -/
def applyOrders (items : List (Nat × OrderBook)) (entries : List (Nat × List Order)) :
    List (Nat × OrderBook) :=
  entries.foldl (fun its p =>
    let its1 := if (alookup its p.1).isSome then its else ainsert its p.1 (OrderBook.new p.1)
    amodify its1 p.1 (fun b =>
      { b with orders := p.2.foldl (fun os o => ainsert os o.id o) b.orders })) items

/-- The full mutation `update_market_data` performs on the book for one
diff: removed first, then new, then modified (lib.rs lines 112-157). -/
def updateMarketApply (items : List (Nat × OrderBook)) (diff : MarketDiff) :
    List (Nat × OrderBook) :=
  applyOrders (applyOrders (applyRemoved items diff.removed) diff.new) diff.modified

theorem alookup_applyRemoved (items : List (Nat × OrderBook))
    (removed : List (Nat × List Nat)) (hnd : (akeys removed).Nodup) (t : Nat) :
    alookup (applyRemoved items removed) t =
      match alookup removed t with
      | some ids => (alookup items t).map (fun b =>
          { b with orders := ids.foldl (fun os oid => aremove os oid) b.orders })
      | none => alookup items t := by
  induction removed generalizing items with
  | nil => simp [applyRemoved]
  | cons p rest ih =>
    obtain ⟨k, ids⟩ := p
    have hndrest : (akeys rest).Nodup := by
      simp only [akeys, List.map_cons, List.nodup_cons] at hnd
      exact hnd.2
    have hknotrest : k ∉ akeys rest := by
      simp only [akeys, List.map_cons, List.nodup_cons] at hnd
      exact hnd.1
    have hrestnone : alookup rest k = none := (alookup_eq_none_iff rest k).mpr hknotrest
    have hstep : ∀ its : List (Nat × OrderBook),
        applyRemoved its ((k, ids) :: rest) = applyRemoved
          (if (alookup its k).isSome then
            amodify its k (fun b =>
              { b with orders := ids.foldl (fun os oid => aremove os oid) b.orders })
          else its) rest := by
      intro its
      rfl
    rw [hstep items, ih _ hndrest]
    by_cases hkt : k = t
    · subst hkt
      have hcons : alookup ((k, ids) :: rest) k = some ids := by simp
      rw [hcons, hrestnone]
      split_ifs with hit
      · rw [alookup_amodify, if_pos rfl]
      · have hnone : alookup items k = none := by
          cases hc : alookup items k with
          | none => rfl
          | some w => rw [hc] at hit; simp at hit
        rw [hnone]
        simp
    · have hcons : alookup ((k, ids) :: rest) t = alookup rest t := by
        simp [alookup_cons, hkt]
      rw [hcons]
      have hother : ∀ X : List (Nat × OrderBook),
          alookup (if (alookup X k).isSome then
            amodify X k (fun b =>
              { b with orders := ids.foldl (fun os oid => aremove os oid) b.orders })
          else X) t = alookup X t := by
        intro X
        split_ifs with hit
        · rw [alookup_amodify, if_neg hkt]
        · rfl
      cases hr : alookup rest t with
      | some ids2 =>
        simp only
        rw [hother]
      | none =>
        simp only
        rw [hother]

theorem alookup_applyOrders (items : List (Nat × OrderBook))
    (entries : List (Nat × List Order)) (hnd : (akeys entries).Nodup) (t : Nat) :
    alookup (applyOrders items entries) t =
      match alookup entries t with
      | some orders =>
        (alookup items t).map (fun b =>
            { b with orders := orders.foldl (fun os o => ainsert os o.id o) b.orders })
          |>.getD { OrderBook.new t with
              orders := orders.foldl (fun os o => ainsert os o.id o) (OrderBook.new t).orders }
          |> some
      | none => alookup items t := by
  induction entries generalizing items with
  | nil => simp [applyOrders]
  | cons p rest ih =>
    obtain ⟨k, orders⟩ := p
    have hndrest : (akeys rest).Nodup := by
      simp only [akeys, List.map_cons, List.nodup_cons] at hnd
      exact hnd.2
    have hknotrest : k ∉ akeys rest := by
      simp only [akeys, List.map_cons, List.nodup_cons] at hnd
      exact hnd.1
    have hrestnone : alookup rest k = none := (alookup_eq_none_iff rest k).mpr hknotrest
    have hstep : ∀ its : List (Nat × OrderBook),
        applyOrders its ((k, orders) :: rest) = applyOrders
          (amodify (if (alookup its k).isSome then its else ainsert its k (OrderBook.new k)) k
            (fun b =>
              { b with orders := orders.foldl (fun os o => ainsert os o.id o) b.orders })) rest := by
      intro its
      rfl
    rw [hstep items, ih _ hndrest]
    by_cases hkt : k = t
    · subst hkt
      have hcons : alookup ((k, orders) :: rest) k = some orders := by simp
      rw [hcons, hrestnone]
      simp only
      rw [alookup_amodify, if_pos rfl]
      split_ifs with hit
      · obtain ⟨b, hb⟩ := Option.isSome_iff_exists.mp hit
        rw [hb]
        rfl
      · have hnone : alookup items k = none := by
          cases hc : alookup items k with
          | none => rfl
          | some w => rw [hc] at hit; simp at hit
        rw [alookup_ainsert, if_pos rfl, hnone]
        rfl
    · have hcons : alookup ((k, orders) :: rest) t = alookup rest t := by
        simp [alookup_cons, hkt]
      rw [hcons]
      have hother : ∀ X : List (Nat × OrderBook),
          alookup (amodify (if (alookup X k).isSome then X else ainsert X k (OrderBook.new k)) k
            (fun b =>
              { b with orders := orders.foldl (fun os o => ainsert os o.id o) b.orders })) t =
            alookup X t := by
        intro X
        rw [alookup_amodify, if_neg hkt]
        split_ifs with hit
        · rfl
        · rw [alookup_ainsert, if_neg hkt]
      cases hr : alookup rest t with
      | some orders2 =>
        simp only
        rw [hother]
      | none =>
        simp only
        rw [hother]

/-- Look one order up in a book: the type's `OrderBook`, then the order id. -/
def bookLookup (items : List (Nat × OrderBook)) (t oid : Nat) : Option Order :=
  match alookup items t with
  | some b => alookup b.orders oid
  | none => none

/-- Equivalence of two optional order values under the specification's
structural equality on orders: both absent, or both present and `specEq`. -/
def OptOrderEquiv (a b : Option Order) : Prop :=
  match a, b with
  | none, none => True
  | some x, some y => Order.specEq x y
  | _, _ => False

theorem akeys_deltaRems (next : Market) (items : List (Nat × OrderBook)) :
    akeys (deltaRems next items) = akeys items := by
  induction items with
  | nil => rfl
  | cons p rest ih =>
    obtain ⟨k, b⟩ := p
    cases h : alookup next.items k with
    | some nb =>
      rw [deltaRems_cons_some b rest h]
      simp only [akeys, List.map_cons]
      rw [show List.map (fun p => p.1) (deltaRems next rest) = akeys (deltaRems next rest) from rfl,
        ih]
      rfl
    | none =>
      rw [deltaRems_cons_none b rest h]
      simp only [akeys, List.map_cons]
      rw [show List.map (fun p => p.1) (deltaRems next rest) = akeys (deltaRems next rest) from rfl,
        ih]
      rfl

theorem akeys_deltaMods_sublist (next : Market) (items : List (Nat × OrderBook)) :
    (akeys (deltaMods next items)).Sublist (akeys items) := by
  induction items with
  | nil => simp [deltaMods, akeys]
  | cons p rest ih =>
    obtain ⟨k, b⟩ := p
    cases h : alookup next.items k with
    | some nb =>
      rw [deltaMods_cons_some b rest h]
      exact List.Sublist.cons₂ _ ih
    | none =>
      rw [deltaMods_cons_none b rest h]
      exact List.Sublist.cons _ ih

theorem akeys_deltaNews1_sublist (next : Market) (items : List (Nat × OrderBook)) :
    (akeys (deltaNews1 next items)).Sublist (akeys items) := by
  induction items with
  | nil => simp [deltaNews1, akeys]
  | cons p rest ih =>
    obtain ⟨k, b⟩ := p
    cases h : alookup next.items k with
    | some nb =>
      by_cases hemp : newOrders b.orders nb.orders = []
      · rw [deltaNews1_cons_some_empty b rest h hemp]
        exact List.Sublist.cons _ ih
      · rw [deltaNews1_cons_some_nonempty b rest h hemp]
        exact List.Sublist.cons₂ _ ih
    | none =>
      rw [deltaNews1_cons_none b rest h]
      exact List.Sublist.cons _ ih

theorem akeys_deltaNews2_sublist (self : Market) (items : List (Nat × OrderBook)) :
    (akeys (deltaNews2 self items)).Sublist (akeys items) := by
  induction items with
  | nil => simp [deltaNews2, akeys]
  | cons p rest ih =>
    obtain ⟨k, b⟩ := p
    cases h : (alookup self.items k).isSome with
    | true =>
      rw [deltaNews2_cons_present b rest h]
      exact List.Sublist.cons _ ih
    | false =>
      rw [deltaNews2_cons_absent b rest h]
      exact List.Sublist.cons₂ _ ih

theorem akeys_deltaNews1_mem (next : Market) (items : List (Nat × OrderBook)) :
    ∀ x ∈ akeys (deltaNews1 next items), x ∈ akeys items := by
  intro x hx
  exact (akeys_deltaNews1_sublist next items).mem hx

theorem akeys_deltaNews2_none (self : Market) (items : List (Nat × OrderBook)) :
    ∀ x ∈ akeys (deltaNews2 self items), alookup self.items x = none := by
  intro x hx
  induction items with
  | nil => simp [deltaNews2, akeys] at hx
  | cons p rest ih =>
    obtain ⟨k, b⟩ := p
    cases h : (alookup self.items k).isSome with
    | true =>
      rw [deltaNews2_cons_present b rest h] at hx
      exact ih hx
    | false =>
      rw [deltaNews2_cons_absent b rest h] at hx
      simp only [akeys, List.map_cons, List.mem_cons] at hx
      rcases hx with hx1 | hx2
      · subst hx1
        cases hc : alookup self.items x with
        | none => rfl
        | some w => rw [hc] at h; simp at h
      · exact ih hx2

theorem map_id_eq_akeys {old : List (Nat × Order)} (hido : ∀ q ∈ old, q.2.id = q.1) :
    old.map (fun p => p.2.id) = akeys old :=
  List.map_congr_left fun p hp => hido p hp

theorem values_find {new : List (Nat × Order)} (hidn : ∀ q ∈ new, q.2.id = q.1) (oid : Nat) :
    (new.map (fun p => p.2)).find? (fun o => o.id == oid) = alookup new oid := by
  induction new with
  | nil => simp
  | cons p rest ih =>
    have hpid : p.2.id = p.1 := hidn p (List.mem_cons_self _ _)
    have hidrest : ∀ q ∈ rest, q.2.id = q.1 := fun q hq => hidn q (List.mem_cons_of_mem _ hq)
    simp only [List.map_cons]
    by_cases hkt : p.1 = oid
    · rw [List.find?_cons, show (p.2.id == oid) = true by simp [hpid, hkt]]
      simp [alookup_cons, hkt]
    · rw [List.find?_cons, show (p.2.id == oid) = false by
        simp [hpid]
        exact hkt]
      rw [ih hidrest]
      simp [alookup_cons, hkt]

/-- C1: for well-formed markets `prev` and `next`, applying the diff
`Market::delta(prev, next)` to `prev` with the applicator's mutation
(remove per-type ids from `removed`, then insert/overwrite the orders of
`new` and `modified`) yields a market whose `(type_id, order_id, value)`
entries coincide with those of `next`, values compared by the specification's
structural equality on orders (`Order.specEq`). -/
theorem claimC1 (prev next : Market) (hp : prev.WF) (hn : next.WF) (t oid : Nat) :
    OptOrderEquiv
      (bookLookup (updateMarketApply prev.items (Market.delta prev next)) t oid)
      (bookLookup next.items t oid) := by
  have hndR : (akeys (deltaRems next prev.items)).Nodup := by
    rw [akeys_deltaRems]
    exact hp.1
  have hndM : (akeys (deltaMods next prev.items)).Nodup :=
    hp.1.sublist (akeys_deltaMods_sublist next prev.items)
  have hndNews :
      (akeys (deltaNews1 next prev.items ++ deltaNews2 prev next.items)).Nodup := by
    rw [akeys_append]
    refine List.Nodup.append (hp.1.sublist (akeys_deltaNews1_sublist next prev.items))
      (hn.1.sublist (akeys_deltaNews2_sublist prev next.items)) ?_
    intro a ha hb
    have h1 : a ∈ akeys prev.items := akeys_deltaNews1_mem next prev.items a ha
    have h2 : alookup prev.items a = none := akeys_deltaNews2_none prev next.items a hb
    rw [alookup_eq_none_iff] at h2
    exact h2 h1
  have hRt := alookup_deltaRems next prev.items t
  have hMt := alookup_deltaMods next prev.items hp.1 t
  have hN1t := alookup_deltaNews1 next prev.items hp.1 t
  have hN2t := alookup_deltaNews2 prev next.items t
  have hdR : (Market.delta prev next).removed = deltaRems next prev.items := by
    rw [Market.delta_spec prev next hp hn]
  have hdM : (Market.delta prev next).modified = deltaMods next prev.items := by
    rw [Market.delta_spec prev next hp hn]
  have hdN : (Market.delta prev next).new =
      deltaNews1 next prev.items ++ deltaNews2 prev next.items := by
    rw [Market.delta_spec prev next hp hn]
  unfold updateMarketApply
  rw [hdR, hdM, hdN]
  cases hP : alookup prev.items t with
  | some pb =>
    have hpbWF := hp.2 (t, pb) (mem_of_alookup_eq_some hP)
    unfold EntryWF at hpbWF
    obtain ⟨hpbitem, hpbnd, hpbids⟩ := hpbWF
    simp only at hpbnd hpbids
    cases hN : alookup next.items t with
    | some nb =>
      have hnbWF := hn.2 (t, nb) (mem_of_alookup_eq_some hN)
      unfold EntryWF at hnbWF
      obtain ⟨hnbitem, hnbnd, hnbids⟩ := hnbWF
      simp only at hnbnd hnbids
      have hA1 : alookup (applyRemoved prev.items (deltaRems next prev.items)) t =
          some (OrderBook.mk pb.item
            ((removedIds pb.orders nb.orders).foldl
              (fun os oid2 => aremove os oid2) pb.orders)) := by
        rw [alookup_applyRemoved _ _ hndR t, hRt, hP, hN]
        rfl
      have hnews :
          alookup (deltaNews1 next prev.items ++ deltaNews2 prev next.items) t =
            if newOrders pb.orders nb.orders = [] then none
            else some (newOrders pb.orders nb.orders) := by
        rw [alookup_append, hN1t, hN2t, hP, hN]
        by_cases hemp : newOrders pb.orders nb.orders = []
        · simp [Option.bind, Option.or, hemp]
        · simp [Option.bind, Option.or, hemp]
      have hA2 : alookup (applyOrders
            (applyRemoved prev.items (deltaRems next prev.items))
            (deltaNews1 next prev.items ++ deltaNews2 prev next.items)) t =
          some (OrderBook.mk pb.item
            ((newOrders pb.orders nb.orders).foldl
              (fun os o => ainsert os o.id o)
              ((removedIds pb.orders nb.orders).foldl
                (fun os oid2 => aremove os oid2) pb.orders))) := by
        rw [alookup_applyOrders _ _ hndNews t, hnews]
        by_cases hemp : newOrders pb.orders nb.orders = []
        · rw [if_pos hemp, hA1, hemp]
          simp
        · rw [if_neg hemp, hA1]
          rfl
      have hA3 : alookup (applyOrders (applyOrders
            (applyRemoved prev.items (deltaRems next prev.items))
            (deltaNews1 next prev.items ++ deltaNews2 prev next.items))
            (deltaMods next prev.items)) t =
          some (OrderBook.mk pb.item
            ((modifiedOrders pb.orders nb.orders).foldl
              (fun os o => ainsert os o.id o)
              ((newOrders pb.orders nb.orders).foldl
                (fun os o => ainsert os o.id o)
                ((removedIds pb.orders nb.orders).foldl
                  (fun os oid2 => aremove os oid2) pb.orders)))) := by
        rw [alookup_applyOrders _ _ hndM t, hMt, hP, hN, hA2]
        rfl
      unfold bookLookup
      rw [hA3, hN]
      show OptOrderEquiv
        (alookup ((modifiedOrders pb.orders nb.orders).foldl
          (fun os o => ainsert os o.id o)
          ((newOrders pb.orders nb.orders).foldl
            (fun os o => ainsert os o.id o)
            ((removedIds pb.orders nb.orders).foldl
              (fun os oid2 => aremove os oid2) pb.orders))) oid)
        (alookup nb.orders oid)
      rw [alookup_foldl_insertOrder _ (modifiedOrders_ids_nodup hpbnd hnbids) _ oid,
        modifiedOrders_find hpbnd hnbids oid,
        alookup_foldl_insertOrder _ (newOrders_ids_nodup hnbnd hnbids) _ oid,
        newOrders_find hnbnd hnbids oid,
        alookup_foldl_aremove _ _ oid]
      cases hpo : alookup pb.orders oid with
      | some po =>
        cases hw : alookup nb.orders oid with
        | some w =>
          have hnotin : oid ∉ removedIds pb.orders nb.orders := by
            intro hin
            have := ((removedIds_mem_iff hpbids oid).mp hin).2
            rw [hw] at this
            exact nomatch this
          by_cases hbeq : Order.beq w po
          · simp only [hbeq, if_true, if_neg hnotin]
            exact Or.inr (by rw [Order.beq_symm]; exact hbeq)
          · simp only [hbeq, if_false, Bool.false_eq_true]
            exact Or.inl rfl
        | none =>
          have hin : oid ∈ removedIds pb.orders nb.orders :=
            (removedIds_mem_iff hpbids oid).mpr ⟨by rw [hpo]; rfl, hw⟩
          simp only [if_pos hin]
          trivial
      | none =>
        cases hw : alookup nb.orders oid with
        | some w =>
          exact Or.inl rfl
        | none =>
          have hnotin : oid ∉ removedIds pb.orders nb.orders := by
            intro hin
            have := ((removedIds_mem_iff hpbids oid).mp hin).1
            rw [hpo] at this
            exact nomatch this
          simp only [if_neg hnotin]
          trivial
    | none =>
      have hA1 : alookup (applyRemoved prev.items (deltaRems next prev.items)) t =
          some (OrderBook.mk pb.item
            ((pb.orders.map (fun p => p.2.id)).foldl
              (fun os oid2 => aremove os oid2) pb.orders)) := by
        rw [alookup_applyRemoved _ _ hndR t, hRt, hP, hN]
        rfl
      have hnews :
          alookup (deltaNews1 next prev.items ++ deltaNews2 prev next.items) t = none := by
        rw [alookup_append, hN1t, hN2t, hP, hN]
        simp [Option.bind, Option.or]
      have hA3 : alookup (applyOrders (applyOrders
            (applyRemoved prev.items (deltaRems next prev.items))
            (deltaNews1 next prev.items ++ deltaNews2 prev next.items))
            (deltaMods next prev.items)) t =
          some (OrderBook.mk pb.item
            ((pb.orders.map (fun p => p.2.id)).foldl
              (fun os oid2 => aremove os oid2) pb.orders)) := by
        rw [alookup_applyOrders _ _ hndM t, hMt, hP, hN,
          alookup_applyOrders _ _ hndNews t, hnews, hA1]
        rfl
      unfold bookLookup
      rw [hA3, hN]
      show OptOrderEquiv
        (alookup ((pb.orders.map (fun p => p.2.id)).foldl
          (fun os oid2 => aremove os oid2) pb.orders) oid) none
      rw [alookup_foldl_aremove _ _ oid]
      by_cases hin : oid ∈ pb.orders.map (fun p => p.2.id)
      · simp only [if_pos hin]
        trivial
      · simp only [if_neg hin]
        have hnone : alookup pb.orders oid = none := by
          rw [alookup_eq_none_iff]
          intro hk
          apply hin
          rw [map_id_eq_akeys hpbids]
          exact hk
        rw [hnone]
        trivial
  | none =>
    cases hN : alookup next.items t with
    | some nb =>
      have hnbWF := hn.2 (t, nb) (mem_of_alookup_eq_some hN)
      unfold EntryWF at hnbWF
      obtain ⟨hnbitem, hnbnd, hnbids⟩ := hnbWF
      simp only at hnbnd hnbids
      have hA1 : alookup (applyRemoved prev.items (deltaRems next prev.items)) t = none := by
        rw [alookup_applyRemoved _ _ hndR t, hRt, hP]
        rfl
      have hnews :
          alookup (deltaNews1 next prev.items ++ deltaNews2 prev next.items) t =
            some (nb.orders.map (fun order => order.2)) := by
        rw [alookup_append, hN1t, hN2t, hP, hN]
        simp [Option.bind, Option.or]
      have hA3 : alookup (applyOrders (applyOrders
            (applyRemoved prev.items (deltaRems next prev.items))
            (deltaNews1 next prev.items ++ deltaNews2 prev next.items))
            (deltaMods next prev.items)) t =
          some (OrderBook.mk (OrderBook.new t).item
            ((nb.orders.map (fun order => order.2)).foldl
              (fun os o => ainsert os o.id o) (OrderBook.new t).orders)) := by
        rw [alookup_applyOrders _ _ hndM t, hMt, hP,
          alookup_applyOrders _ _ hndNews t, hnews, hA1]
        rfl
      unfold bookLookup
      rw [hA3, hN]
      show OptOrderEquiv
        (alookup ((nb.orders.map (fun order => order.2)).foldl
          (fun os o => ainsert os o.id o) []) oid)
        (alookup nb.orders oid)
      have hvsnd : ((nb.orders.map (fun order => order.2)).map (fun o => o.id)).Nodup := by
        rw [List.map_map]
        have : (fun o => Order.id o) ∘ (fun order : Nat × Order => order.2) =
            fun p : Nat × Order => p.2.id := rfl
        rw [this, map_id_eq_akeys hnbids]
        exact hnbnd
      rw [alookup_foldl_insertOrder _ hvsnd _ oid, values_find hnbids oid]
      cases hw : alookup nb.orders oid with
      | some w =>
        left
        rfl
      | none =>
        trivial
    | none =>
      have hA1 : alookup (applyRemoved prev.items (deltaRems next prev.items)) t = none := by
        rw [alookup_applyRemoved _ _ hndR t, hRt, hP]
        rfl
      have hnews :
          alookup (deltaNews1 next prev.items ++ deltaNews2 prev next.items) t = none := by
        rw [alookup_append, hN1t, hN2t, hP, hN]
        simp [Option.bind, Option.or]
      have hA3 : alookup (applyOrders (applyOrders
            (applyRemoved prev.items (deltaRems next prev.items))
            (deltaNews1 next prev.items ++ deltaNews2 prev next.items))
            (deltaMods next prev.items)) t = none := by
        rw [alookup_applyOrders _ _ hndM t, hMt, hP,
          alookup_applyOrders _ _ hndNews t, hnews, hA1]
        rfl
      unfold bookLookup
      rw [hA3, hN]
      trivial

/-- The `new` list of a diff for one type; absent keys read as empty
(the spec: "Consumers must tolerate absent keys"). -/
def diffNewAt (d : MarketDiff) (t : Nat) : List Order :=
  (alookup d.new t).getD []

/-- The `modified` list of a diff for one type. -/
def diffModifiedAt (d : MarketDiff) (t : Nat) : List Order :=
  (alookup d.modified t).getD []

/-- The `removed` list of a diff for one type. -/
def diffRemovedAt (d : MarketDiff) (t : Nat) : List Nat :=
  (alookup d.removed t).getD []

theorem newOrders_nil_left (new : List (Nat × Order)) :
    newOrders [] new = new.map (fun p => p.2) := by
  induction new with
  | nil => rfl
  | cons p rest ih =>
    rw [newOrders_cons_new rest (by rw [alookup_nil]; rfl)]
    rw [ih]
    rfl

/-- C10: on well-formed markets, for every type the three lists of
`Market::delta(prev, next)` mention each order id at most once and in at
most one list; removed ids exist in `prev`'s book and not in `next`'s; new
orders are `next`'s values at ids absent from `prev`; modified orders are
`next`'s values at ids present in both books with `PartialEq`-different
values. -/
theorem claimC10 (prev next : Market) (hp : prev.WF) (hn : next.WF) (t : Nat) :
    ((diffNewAt (Market.delta prev next) t).map (fun o => o.id)).Nodup ∧
    ((diffModifiedAt (Market.delta prev next) t).map (fun o => o.id)).Nodup ∧
    (diffRemovedAt (Market.delta prev next) t).Nodup ∧
    (∀ o ∈ diffNewAt (Market.delta prev next) t,
      o.id ∉ (diffModifiedAt (Market.delta prev next) t).map (fun o2 => o2.id) ∧
      o.id ∉ diffRemovedAt (Market.delta prev next) t) ∧
    (∀ o ∈ diffModifiedAt (Market.delta prev next) t,
      o.id ∉ diffRemovedAt (Market.delta prev next) t) ∧
    (∀ x ∈ diffRemovedAt (Market.delta prev next) t,
      (bookLookup prev.items t x).isSome ∧ bookLookup next.items t x = none) ∧
    (∀ o ∈ diffNewAt (Market.delta prev next) t,
      bookLookup next.items t o.id = some o ∧ bookLookup prev.items t o.id = none) ∧
    (∀ o ∈ diffModifiedAt (Market.delta prev next) t,
      ∃ po, bookLookup prev.items t o.id = some po ∧
        bookLookup next.items t o.id = some o ∧ Order.beq o po = false) := by
  have hRt := alookup_deltaRems next prev.items t
  have hMt := alookup_deltaMods next prev.items hp.1 t
  have hN1t := alookup_deltaNews1 next prev.items hp.1 t
  have hN2t := alookup_deltaNews2 prev next.items t
  have hdR : (Market.delta prev next).removed = deltaRems next prev.items := by
    rw [Market.delta_spec prev next hp hn]
  have hdM : (Market.delta prev next).modified = deltaMods next prev.items := by
    rw [Market.delta_spec prev next hp hn]
  have hdN : (Market.delta prev next).new =
      deltaNews1 next prev.items ++ deltaNews2 prev next.items := by
    rw [Market.delta_spec prev next hp hn]
  cases hP : alookup prev.items t with
  | some pb =>
    have hpbWF := hp.2 (t, pb) (mem_of_alookup_eq_some hP)
    unfold EntryWF at hpbWF
    obtain ⟨hpbitem, hpbnd, hpbids⟩ := hpbWF
    simp only at hpbnd hpbids
    have hBLp : ∀ x, bookLookup prev.items t x = alookup pb.orders x := by
      intro x
      unfold bookLookup
      rw [hP]
    cases hN : alookup next.items t with
    | some nb =>
      have hnbWF := hn.2 (t, nb) (mem_of_alookup_eq_some hN)
      unfold EntryWF at hnbWF
      obtain ⟨hnbitem, hnbnd, hnbids⟩ := hnbWF
      simp only at hnbnd hnbids
      have hBLn : ∀ x, bookLookup next.items t x = alookup nb.orders x := by
        intro x
        unfold bookLookup
        rw [hN]
      have hNewL : diffNewAt (Market.delta prev next) t =
          newOrders pb.orders nb.orders := by
        unfold diffNewAt
        rw [hdN, alookup_append, hN1t, hN2t, hP, hN]
        by_cases hemp : newOrders pb.orders nb.orders = []
        · simp [Option.bind, Option.or, hemp]
        · simp [Option.bind, Option.or, hemp]
      have hModL : diffModifiedAt (Market.delta prev next) t =
          modifiedOrders pb.orders nb.orders := by
        unfold diffModifiedAt
        rw [hdM, hMt, hP, hN]
        rfl
      have hRemL : diffRemovedAt (Market.delta prev next) t =
          removedIds pb.orders nb.orders := by
        unfold diffRemovedAt
        rw [hdR, hRt, hP, hN]
        rfl
      rw [hNewL, hModL, hRemL]
      simp only [hBLp, hBLn]
      refine ⟨newOrders_ids_nodup hnbnd hnbids,
        modifiedOrders_ids_nodup hpbnd hnbids,
        removedIds_nodup hpbnd hpbids, ?_, ?_, ?_, ?_, ?_⟩
      · intro o ho
        have hmem := mem_newOrders hnbnd hnbids o ho
        constructor
        · intro hc
          rw [List.mem_map] at hc
          obtain ⟨o2, ho2, hid⟩ := hc
          have hsub : o2.id ∈ akeys pb.orders := modifiedOrders_ids_sub hnbids o2 ho2
          rw [hid] at hsub
          rw [← alookup_isSome_iff] at hsub
          rw [hmem.2] at hsub
          exact nomatch hsub
        · intro hc
          have := ((removedIds_mem_iff hpbids o.id).mp hc).1
          rw [hmem.2] at this
          exact nomatch this
      · intro o ho
        obtain ⟨po, hpo, hw, hbeq⟩ := mem_modifiedOrders hpbnd hnbids o ho
        intro hc
        have := ((removedIds_mem_iff hpbids o.id).mp hc).2
        rw [hw] at this
        exact nomatch this
      · intro x hx
        exact (removedIds_mem_iff hpbids x).mp hx
      · intro o ho
        have hmem := mem_newOrders hnbnd hnbids o ho
        exact ⟨hmem.1, hmem.2⟩
      · intro o ho
        exact mem_modifiedOrders hpbnd hnbids o ho
    | none =>
      have hBLn : ∀ x, bookLookup next.items t x = none := by
        intro x
        unfold bookLookup
        rw [hN]
      have hNewL : diffNewAt (Market.delta prev next) t = [] := by
        unfold diffNewAt
        rw [hdN, alookup_append, hN1t, hN2t, hP, hN]
        rfl
      have hModL : diffModifiedAt (Market.delta prev next) t = [] := by
        unfold diffModifiedAt
        rw [hdM, hMt, hP, hN]
        rfl
      have hRemL : diffRemovedAt (Market.delta prev next) t =
          pb.orders.map (fun p => p.2.id) := by
        unfold diffRemovedAt
        rw [hdR, hRt, hP, hN]
        rfl
      rw [hNewL, hModL, hRemL]
      simp only [hBLp, hBLn]
      refine ⟨by simp, by simp, ?_, ?_, ?_, ?_, ?_, ?_⟩
      · rw [map_id_eq_akeys hpbids]
        exact hpbnd
      · intro o ho
        simp at ho
      · intro o ho
        simp at ho
      · intro x hx
        rw [map_id_eq_akeys hpbids] at hx
        rw [← alookup_isSome_iff] at hx
        exact ⟨hx, trivial⟩
      · intro o ho
        simp at ho
      · intro o ho
        simp at ho
  | none =>
    have hBLp : ∀ x, bookLookup prev.items t x = none := by
      intro x
      unfold bookLookup
      rw [hP]
    cases hN : alookup next.items t with
    | some nb =>
      have hnbWF := hn.2 (t, nb) (mem_of_alookup_eq_some hN)
      unfold EntryWF at hnbWF
      obtain ⟨hnbitem, hnbnd, hnbids⟩ := hnbWF
      simp only at hnbnd hnbids
      have hBLn : ∀ x, bookLookup next.items t x = alookup nb.orders x := by
        intro x
        unfold bookLookup
        rw [hN]
      have hNewL : diffNewAt (Market.delta prev next) t =
          newOrders [] nb.orders := by
        unfold diffNewAt
        rw [hdN, alookup_append, hN1t, hN2t, hP, hN, newOrders_nil_left]
        rfl
      have hModL : diffModifiedAt (Market.delta prev next) t = [] := by
        unfold diffModifiedAt
        rw [hdM, hMt, hP]
        rfl
      have hRemL : diffRemovedAt (Market.delta prev next) t = [] := by
        unfold diffRemovedAt
        rw [hdR, hRt, hP]
        rfl
      rw [hNewL, hModL, hRemL]
      simp only [hBLp, hBLn]
      refine ⟨newOrders_ids_nodup hnbnd hnbids, by simp, by simp, ?_, ?_, ?_, ?_, ?_⟩
      · intro o ho
        exact ⟨by simp, by simp⟩
      · intro o ho
        simp at ho
      · intro x hx
        simp at hx
      · intro o ho
        have hmem := mem_newOrders hnbnd hnbids o ho
        exact ⟨hmem.1, trivial⟩
      · intro o ho
        simp at ho
    | none =>
      have hNewL : diffNewAt (Market.delta prev next) t = [] := by
        unfold diffNewAt
        rw [hdN, alookup_append, hN1t, hN2t, hP, hN]
        rfl
      have hModL : diffModifiedAt (Market.delta prev next) t = [] := by
        unfold diffModifiedAt
        rw [hdM, hMt, hP]
        rfl
      have hRemL : diffRemovedAt (Market.delta prev next) t = [] := by
        unfold diffRemovedAt
        rw [hdR, hRt, hP]
        rfl
      rw [hNewL, hModL, hRemL]
      refine ⟨by simp, by simp, by simp, ?_, ?_, ?_, ?_, ?_⟩
      · intro o ho
        simp at ho
      · intro o ho
        simp at ho
      · intro x hx
        simp at hx
      · intro o ho
        simp at ho
      · intro o ho
        simp at ho

/-- An order whose price is the canonical NaN (`f64::NAN`). -/
def ordNaN : Order :=
  { id := 1, is_buy_order := false, price := F64.nan false, issued := 0, expiry := 0,
    location_id := ⟨60000001⟩, system_id := ⟨30000001⟩, min_volume := 1,
    range := MarketOrderRange.region, volume_remain := 1, volume_total := 1 }

/-- A market holding the single NaN-priced order under type 34. -/
def marketNaN : Market :=
  ⟨[(34, OrderBook.mk 34 [(1, ordNaN)])], 0, 0⟩

/-- C3 (code bug): the claim says `delta(M, M)` is the empty diff for every
market M, but on `marketNaN` — one order whose price is NaN — the derived
`PartialEq` makes the unchanged order compare unequal to itself, so
`Market::delta(M, M)` reports it as modified: `modified[34] = [the order]`,
a non-empty modified list. -/
theorem claimC3 :
    Market.delta marketNaN marketNaN =
      ⟨[], [(34, [ordNaN])], [(34, [])]⟩ ∧
    diffModifiedAt (Market.delta marketNaN marketNaN) 34 = [ordNaN] := by
  constructor
  · rfl
  · rfl

/-- C9 (code bug): the claim says equality on `Order` is reflexive even for
a NaN price (as the manual `impl Eq for Order` asserts), but the derived
`PartialEq` compares `price` with IEEE `==`, under which the NaN-priced
order is unequal to itself; the `total_cmp`-based ordering, by contrast, is
well-defined there (the order compares equal to itself). -/
theorem claimC9 :
    Order.beq ordNaN ordNaN = false ∧ Order.cmp ordNaN ordNaN = Ordering.eq := by
  constructor
  · rfl
  · rfl

/-- A plain order with id 1 and price 10.0. -/
def ordW1 : Order :=
  { id := 1, is_buy_order := false, price := F64.finite 10, issued := 0, expiry := 0,
    location_id := ⟨60000001⟩, system_id := ⟨30000001⟩, min_volume := 1,
    range := MarketOrderRange.region, volume_remain := 1, volume_total := 1 }

/-- The same order with the price changed to 12.0. -/
def ordW2 : Order :=
  { ordW1 with price := F64.finite 12 }

/-- A fresh order with id 2 and price 30.0. -/
def ordW3 : Order :=
  { ordW1 with id := 2, price := F64.finite 30 }

/-- A one-type, one-order market for the concrete checks. -/
def prevW : Market :=
  ⟨[(34, OrderBook.mk 34 [(1, ordW1)])], 0, 0⟩

/-- The successor snapshot: order 1 modified, order 2 new. -/
def nextW : Market :=
  ⟨[(34, OrderBook.mk 34 [(1, ordW2), (2, ordW3)])], 0, 0⟩

theorem claimC1_witness :
    OptOrderEquiv
      (bookLookup (updateMarketApply prevW.items (Market.delta prevW nextW)) 34 1)
      (bookLookup nextW.items 34 1) :=
  claimC1 prevW nextW (by decide) (by decide) 34 1

theorem claimC10_witness :
    ((diffNewAt (Market.delta prevW nextW) 34).map (fun o => o.id)).Nodup ∧
    ((diffModifiedAt (Market.delta prevW nextW) 34).map (fun o => o.id)).Nodup ∧
    (diffRemovedAt (Market.delta prevW nextW) 34).Nodup ∧
    (∀ o ∈ diffNewAt (Market.delta prevW nextW) 34,
      o.id ∉ (diffModifiedAt (Market.delta prevW nextW) 34).map (fun o2 => o2.id) ∧
      o.id ∉ diffRemovedAt (Market.delta prevW nextW) 34) ∧
    (∀ o ∈ diffModifiedAt (Market.delta prevW nextW) 34,
      o.id ∉ diffRemovedAt (Market.delta prevW nextW) 34) ∧
    (∀ x ∈ diffRemovedAt (Market.delta prevW nextW) 34,
      (bookLookup prevW.items 34 x).isSome ∧ bookLookup nextW.items 34 x = none) ∧
    (∀ o ∈ diffNewAt (Market.delta prevW nextW) 34,
      bookLookup nextW.items 34 o.id = some o ∧ bookLookup prevW.items 34 o.id = none) ∧
    (∀ o ∈ diffModifiedAt (Market.delta prevW nextW) 34,
      ∃ po, bookLookup prevW.items 34 o.id = some po ∧
        bookLookup nextW.items 34 o.id = some o ∧ Order.beq o po = false) :=
  claimC10 prevW nextW (by decide) (by decide) 34

/-! ### Region refresh sleep (data_fetcher lib.rs lines 40-42) -/

/-- `refresh_region_data`'s sleep computation, in nanoseconds:
`(expiry_time - Utc::now() + TimeDelta::new(1, 0)).to_std().unwrap_or(30s)`.
`TimeDelta::to_std` fails exactly on negative durations, so the
`unwrap_or` substitutes 30 seconds whenever `expires + 1s - now` is
negative. -/
def sleepDurNs (expires now : Int) : Int :=
  let d := expires - now + 1000000000
  if 0 ≤ d then d else 30000000000

/-- C4 counterexample: the claim says the sleep equals
`max(0, expires + 1s - now)`, but with the expiry two seconds in the past
the code sleeps the 30-second fallback, not zero. -/
theorem claimC4_counterexample :
    sleepDurNs 0 2000000000 ≠ max 0 ((0 : Int) + 1000000000 - 2000000000) := by
  decide

/-- C4 (amended): after a successful fetch the sleep equals
`expires + 1s - now` when that is nonnegative (which also equals
`max(0, expires + 1s - now)` there), and the 30-second error fallback of
`to_std().unwrap_or` otherwise — never zero. -/
theorem claimC4 (expires now : Int) :
    (0 ≤ expires + 1000000000 - now →
      sleepDurNs expires now = max 0 (expires + 1000000000 - now)) ∧
    (expires + 1000000000 - now < 0 → sleepDurNs expires now = 30000000000) := by
  constructor
  · intro h
    unfold sleepDurNs
    rw [if_pos (by omega), max_eq_right h]
    omega
  · intro h
    unfold sleepDurNs
    rw [if_neg (by omega)]

theorem claimC4_witness :
    sleepDurNs 5 3 = max 0 ((5 : Int) + 1000000000 - 3) ∧
    sleepDurNs 0 2000000000 = 30000000000 :=
  ⟨(claimC4 5 3).1 (by decide), (claimC4 0 2000000000).2 (by decide)⟩

/-! ### ESI client response classification (esi lib.rs lines 114-157) -/

/-- The client's error-budget state: `errors` (initially 100) and
`error_timeout` (initially 0), the two mutex-guarded counters. -/
structure ESIState where
  errors : Nat
  error_timeout : Nat
deriving DecidableEq, Repr

/-- What `esi_get` does after the response status is known. -/
inductive EsiOutcome where
  /-- `200`: the response is returned. -/
  | ok
  /-- `420`: `await_esi_timeout` sleeps the recorded seconds, then an error
  is returned. -/
  | errAfterSleep (secs : Nat)
  /-- an error is returned immediately. -/
  | err
  /-- unknown status: logged, then an error is returned. -/
  | errUnknown
deriving DecidableEq, Repr

/-- The status `match` at the end of `ESIClient::esi_get` (lib.rs lines
114-157): `200` succeeds; `420` sleeps the current `error_timeout` and
errors; remaining `400..=499` store the two `x-esi-error-limit-*` headers
into the state and error; `500..=599` error with the state untouched;
anything else logs and errors. -/
def esiClassify (status remainHdr resetHdr : Nat) (st : ESIState) : ESIState × EsiOutcome :=
  if status = 200 then (st, EsiOutcome.ok)
  else if status = 420 then (st, EsiOutcome.errAfterSleep st.error_timeout)
  else if 400 ≤ status ∧ status ≤ 499 then (⟨remainHdr, resetHdr⟩, EsiOutcome.err)
  else if 500 ≤ status ∧ status ≤ 599 then (st, EsiOutcome.err)
  else (st, EsiOutcome.errUnknown)

/-- C6: status 200 is returned as success; 420 blocks for the current
`reset_seconds` and then errors; any other 400-499 status first replaces
both `errors_remaining` and `reset_seconds` with the response's
`x-esi-error-limit-remain` / `x-esi-error-limit-reset` headers and then
errors; 500-599 errors with both counters unchanged. -/
theorem claimC6 (status remainHdr resetHdr : Nat) (st : ESIState) :
    (status = 200 → esiClassify status remainHdr resetHdr st = (st, EsiOutcome.ok)) ∧
    (status = 420 →
      esiClassify status remainHdr resetHdr st = (st, EsiOutcome.errAfterSleep st.error_timeout)) ∧
    (400 ≤ status → status ≤ 499 → status ≠ 420 →
      esiClassify status remainHdr resetHdr st = (⟨remainHdr, resetHdr⟩, EsiOutcome.err)) ∧
    (500 ≤ status → status ≤ 599 →
      esiClassify status remainHdr resetHdr st = (st, EsiOutcome.err)) := by
  refine ⟨?_, ?_, ?_, ?_⟩
  · intro h
    subst h
    rfl
  · intro h
    subst h
    rfl
  · intro h1 h2 h3
    unfold esiClassify
    rw [if_neg (by omega), if_neg h3, if_pos ⟨h1, h2⟩]
  · intro h1 h2
    unfold esiClassify
    rw [if_neg (by omega), if_neg (by omega), if_neg (by omega), if_pos ⟨h1, h2⟩]

theorem claimC6_witness :
    esiClassify 200 7 9 ⟨100, 0⟩ = (⟨100, 0⟩, EsiOutcome.ok) ∧
    esiClassify 420 7 9 ⟨100, 5⟩ = (⟨100, 5⟩, EsiOutcome.errAfterSleep 5) ∧
    esiClassify 404 7 9 ⟨100, 0⟩ = (⟨7, 9⟩, EsiOutcome.err) ∧
    esiClassify 503 7 9 ⟨100, 0⟩ = (⟨100, 0⟩, EsiOutcome.err) :=
  ⟨(claimC6 200 7 9 ⟨100, 0⟩).1 rfl,
   (claimC6 420 7 9 ⟨100, 5⟩).2.1 rfl,
   (claimC6 404 7 9 ⟨100, 0⟩).2.2.1 (by decide) (by decide) (by decide),
   (claimC6 503 7 9 ⟨100, 0⟩).2.2.2 (by decide) (by decide)⟩

/-- C7: each identifier newtype accepts exactly its half-open range —
RegionID `[10M, 20M)`, SystemID `[30M, 40M)`, ConstellationID `[20M, 30M)`
over u32, StationID `[60M, 64M)` over u64 — and every rejection is a
structured `InvalidIDError` carrying the offending value and the accepted
interval. -/
theorem claimC7 (v w : Nat) (hv : v < 4294967296) (hw : w < 18446744073709551616) :
    ((10000000 ≤ v ∧ v < 20000000 → RegionID.tryFrom v = Except.ok ⟨v⟩) ∧
     (¬(10000000 ≤ v ∧ v < 20000000) →
       RegionID.tryFrom v = Except.error ⟨v, 10000000, 20000000⟩)) ∧
    ((30000000 ≤ v ∧ v < 40000000 → SystemID.tryFrom v = Except.ok ⟨v⟩) ∧
     (¬(30000000 ≤ v ∧ v < 40000000) →
       SystemID.tryFrom v = Except.error ⟨v, 30000000, 40000000⟩)) ∧
    ((20000000 ≤ v ∧ v < 30000000 → ConstellationID.tryFrom v = Except.ok ⟨v⟩) ∧
     (¬(20000000 ≤ v ∧ v < 30000000) →
       ConstellationID.tryFrom v = Except.error ⟨v, 20000000, 30000000⟩)) ∧
    ((60000000 ≤ w ∧ w < 64000000 → StationID.tryFrom w = Except.ok ⟨w⟩) ∧
     (¬(60000000 ≤ w ∧ w < 64000000) →
       StationID.tryFrom w = Except.error ⟨w, 60000000, 64000000⟩)) := by
  refine ⟨⟨?_, ?_⟩, ⟨?_, ?_⟩, ⟨?_, ?_⟩, ⟨?_, ?_⟩⟩ <;> intro h
  · rw [RegionID.tryFrom, if_pos h]
  · rw [RegionID.tryFrom, if_neg h]
  · rw [SystemID.tryFrom, if_pos h]
  · rw [SystemID.tryFrom, if_neg h]
  · rw [ConstellationID.tryFrom, if_pos h]
  · rw [ConstellationID.tryFrom, if_neg h]
  · rw [StationID.tryFrom, if_pos h]
  · rw [StationID.tryFrom, if_neg h]

theorem claimC7_witness :
    RegionID.tryFrom 10000000 = Except.ok ⟨10000000⟩ ∧
    RegionID.tryFrom 20000000 = Except.error ⟨20000000, 10000000, 20000000⟩ ∧
    SystemID.tryFrom 30000000 = Except.ok ⟨30000000⟩ ∧
    SystemID.tryFrom 29999999 = Except.error ⟨29999999, 30000000, 40000000⟩ ∧
    ConstellationID.tryFrom 29999999 = Except.ok ⟨29999999⟩ ∧
    StationID.tryFrom 63999999 = Except.ok ⟨63999999⟩ ∧
    StationID.tryFrom 64000000 = Except.error ⟨64000000, 60000000, 64000000⟩ :=
  ⟨((claimC7 10000000 60000000 (by decide) (by decide)).1).1 (by decide),
   ((claimC7 20000000 60000000 (by decide) (by decide)).1).2 (by decide),
   ((claimC7 30000000 60000000 (by decide) (by decide)).2.1).1 (by decide),
   ((claimC7 29999999 60000000 (by decide) (by decide)).2.1).2 (by decide),
   ((claimC7 29999999 60000000 (by decide) (by decide)).2.2.1).1 (by decide),
   ((claimC7 10000000 63999999 (by decide) (by decide)).2.2.2).1 (by decide),
   ((claimC7 10000000 64000000 (by decide) (by decide)).2.2.2).2 (by decide)⟩

/-! ### Data server GET /market/:id (data_fetcher server.rs lines 24-39) -/

/-- Rust's `u32::from_str` as invoked by `id.parse::<u32>()`: an optional
leading `+`, then one or more ASCII digits, value below `2^32`; anything
else (empty digits, other characters, a minus sign, overflow) is an
error. -/
def parseU32 (s : String) : Option Nat :=
  let cs := s.data
  let cs2 := match cs with
    | '+' :: rest => rest
    | _ => cs
  if cs2.isEmpty then none
  else if cs2.all (fun c => c.isDigit) then
    let n := cs2.foldl (fun acc c => acc * 10 + (c.toNat - 48)) 0
    if n < 4294967296 then some n else none
  else none

/-- The three responses the `/market/{id}` route produces. -/
inductive MarketResponse where
  /-- `400 "Invalid ID format"` -/
  | badRequest
  /-- `404 "Item Type Not Found"` -/
  | notFound
  /-- `200` with the JSON list of the type's orders -/
  | ok (orders : List Order)
deriving DecidableEq, Repr

/-- The `/market/{id}` handler (server.rs lines 24-39): parse the path
segment as u32 (`400` on failure), look the type up in the global book
(`404` when absent), otherwise return the orderbook's values. -/
def marketHandler (id : String) (items : List (Nat × OrderBook)) : MarketResponse :=
  match parseU32 id with
  | none => MarketResponse.badRequest
  | some n =>
    match alookup items n with
    | some orderbook => MarketResponse.ok (orderbook.orders.map (fun p => p.2))
    | none => MarketResponse.notFound

/-- Modelled from the claim's words: the path segment is "a positive
integer", read as a nonempty all-digit numeral of positive value. -/
def isPositiveIntegerStr (s : String) : Bool :=
  !s.isEmpty && s.data.all (fun c => c.isDigit)
    && 0 < s.data.foldl (fun acc c => acc * 10 + (c.toNat - 48)) 0

/-- C8 counterexample: the claim says the endpoint returns 400 exactly when
the segment is not a positive integer, but `"0"` is not a positive integer
and the handler parses it as the u32 `0` and answers 404, not 400. -/
theorem claimC8_counterexample :
    isPositiveIntegerStr "0" = false ∧
    marketHandler "0" [] = MarketResponse.notFound ∧
    MarketResponse.notFound ≠ MarketResponse.badRequest := by
  refine ⟨by decide, by decide, by decide⟩

/-- C8 (amended): the endpoint returns 400 iff the segment fails to parse
as a u32 (zero and a leading `+` are accepted, values at or above `2^32`
rejected), 404 iff the parsed type has no orderbook entry in the global
book (a present-but-empty orderbook yields 200 with an empty list), and
otherwise 200 with that type's order list. -/
theorem claimC8 (s : String) (items : List (Nat × OrderBook)) :
    (marketHandler s items = MarketResponse.badRequest ↔ parseU32 s = none) ∧
    (marketHandler s items = MarketResponse.notFound ↔
      ∃ n, parseU32 s = some n ∧ alookup items n = none) ∧
    (∀ l, marketHandler s items = MarketResponse.ok l ↔
      ∃ n ob, parseU32 s = some n ∧ alookup items n = some ob ∧
        l = ob.orders.map (fun p => p.2)) := by
  cases hp : parseU32 s with
  | none =>
    refine ⟨by simp [marketHandler, hp], ?_, ?_⟩
    · simp [marketHandler, hp]
    · intro l
      simp [marketHandler, hp]
  | some n =>
    cases hl : alookup items n with
    | none =>
      refine ⟨by simp [marketHandler, hp, hl], ?_, ?_⟩
      · simp [marketHandler, hp, hl]
      · intro l
        simp [marketHandler, hp, hl]
    | some ob =>
      refine ⟨by simp [marketHandler, hp, hl], ?_, ?_⟩
      · simp [marketHandler, hp, hl]
      · intro l
        simp [marketHandler, hp, hl]
        exact eq_comm

theorem claimC8_witness :
    marketHandler "5" [(5, OrderBook.new 5)] = MarketResponse.ok [] ∧
    marketHandler "x" [] = MarketResponse.badRequest ∧
    marketHandler "+7" [] = MarketResponse.notFound :=
  ⟨((claimC8 "5" [(5, OrderBook.new 5)]).2.2 []).mpr
      ⟨5, OrderBook.new 5, by decide, by decide, by decide⟩,
   ((claimC8 "x" []).1).mpr (by decide),
   ((claimC8 "+7" []).2.1).mpr ⟨7, by decide, by decide⟩⟩

/-! ### Book applicator task model (data_fetcher lib.rs lines 78-179)

`update_market_data` is a loop `while let Some((new_market, region)) =
rx.recv().await` whose body immediately calls `tokio::spawn` on the
processing of the received pair and goes back to `recv`.  The spawned task
reads the region's previous snapshot (`regions.get`, line 96), performs the
global-book mutation under the book mutex (lines 110-173, modelled as one
atomic `mutate` step because the mutex serializes it), and finally replaces
the region's snapshot (`regions.insert`, line 176).  The model below is the
induced labelled transition system: `recv i` is only enabled in channel
order, and each spawned task steps through its three actions in program
order, interleaving freely with the loop and with other tasks. -/

/-- Events of the applicator model, indexed by the pair's arrival number. -/
inductive AEv where
  | recv (i : Nat)
  | readPrev (i : Nat)
  | mutate (i : Nat)
  | writePrev (i : Nat)
deriving DecidableEq, Repr

/-- Program counter of one spawned processing task. -/
inductive TPC where
  | spawned
  | readDone
  | mutated
  | done
deriving DecidableEq, Repr

/-- Applicator state: number of pairs received so far and the program
counter of every spawned task. -/
structure AppSt where
  received : Nat
  tasks : List (Nat × TPC)
deriving DecidableEq, Repr

/-- Initial applicator state. -/
def appInit : AppSt := ⟨0, []⟩

/-- One transition of the applicator model (see the section comment). -/
def astep (n : Nat) (s : AppSt) (e : AEv) : Option AppSt :=
  match e with
  | AEv.recv i =>
    if i = s.received ∧ s.received < n then
      some ⟨s.received + 1, s.tasks ++ [(s.received, TPC.spawned)]⟩
    else none
  | AEv.readPrev i =>
    match alookup s.tasks i with
    | some TPC.spawned => some ⟨s.received, amodify s.tasks i (fun _ => TPC.readDone)⟩
    | _ => none
  | AEv.mutate i =>
    match alookup s.tasks i with
    | some TPC.readDone => some ⟨s.received, amodify s.tasks i (fun _ => TPC.mutated)⟩
    | _ => none
  | AEv.writePrev i =>
    match alookup s.tasks i with
    | some TPC.mutated => some ⟨s.received, amodify s.tasks i (fun _ => TPC.done)⟩
    | _ => none

/-- Run the applicator model over a trace. -/
def arun (n : Nat) (tr : List AEv) : Option AppSt :=
  tr.foldl (fun acc e => acc.bind (fun s => astep n s e)) (some appInit)

/-- A complete execution: every step was enabled, all `n` pairs were
received and every task ran to completion. -/
def completeTrace (n : Nat) (tr : List AEv) : Bool :=
  match arun n tr with
  | some s => s.received == n && s.tasks.all (fun p => p.2 == TPC.done)
  | none => false

/-- Index of the first occurrence of an event in a trace. -/
def posOf (e : AEv) : List AEv → Nat
  | [] => 0
  | e2 :: rest => if e2 = e then 0 else posOf e rest + 1

/-- The claim's serial-processing property: each pair's snapshot
replacement finishes before the next pair's delta computation begins. -/
def serialTrace (n : Nat) (tr : List AEv) : Bool :=
  (List.range (n - 1)).all
    (fun i => posOf (AEv.writePrev i) tr < posOf (AEv.readPrev (i + 1)) tr)

/-- A complete two-pair execution in which pair 1's processing starts
before pair 0's finishes. -/
def apTr0 : List AEv :=
  [AEv.recv 0, AEv.recv 1, AEv.readPrev 1, AEv.readPrev 0,
   AEv.mutate 0, AEv.writePrev 0, AEv.mutate 1, AEv.writePrev 1]

/-- C2 counterexample: because `update_market_data` spawns a task per
received pair instead of processing it inline, the model admits a complete
execution of two pairs that is not serial — pair 1's `readPrev` precedes
pair 0's `writePrev` — refuting the claim that each pair's processing
completes before the next pair's begins. -/
theorem claimC2_counterexample :
    completeTrace 2 apTr0 = true ∧ serialTrace 2 apTr0 = false := by
  refine ⟨by decide, by decide⟩

/-- `true` iff the event is a channel receive. -/
def isRecvEv : AEv → Bool
  | AEv.recv _ => true
  | _ => false

/-- `true` iff the event belongs to pair `i`. -/
def isPairEv (i : Nat) : AEv → Bool
  | AEv.recv j => j == i
  | AEv.readPrev j => j == i
  | AEv.mutate j => j == i
  | AEv.writePrev j => j == i

/-- The events pair `i` has performed when its task is at a given pc. -/
def pcEvents (i : Nat) : TPC → List AEv
  | TPC.spawned => [AEv.recv i]
  | TPC.readDone => [AEv.recv i, AEv.readPrev i]
  | TPC.mutated => [AEv.recv i, AEv.readPrev i, AEv.mutate i]
  | TPC.done => [AEv.recv i, AEv.readPrev i, AEv.mutate i, AEv.writePrev i]

/-- Invariant of the applicator model relating a state to the trace that
reached it. -/
def AppInv (tr : List AEv) (s : AppSt) : Prop :=
  tr.filter isRecvEv = (List.range s.received).map AEv.recv ∧
  akeys s.tasks = List.range s.received ∧
  (∀ p ∈ s.tasks, tr.filter (isPairEv p.1) = pcEvents p.1 p.2) ∧
  (∀ i, i ∉ akeys s.tasks → tr.filter (isPairEv i) = [])

theorem akeys_amodify {α : Type} (m : List (Nat × α)) (k : Nat) (f : α → α) :
    akeys (amodify m k f) = akeys m := by
  unfold akeys amodify
  rw [List.map_map]
  apply List.map_congr_left
  intro p hp
  by_cases h : p.1 = k
  · simp [Function.comp, h]
  · simp [Function.comp, h]

theorem arun_append (n : Nat) (tr : List AEv) (e : AEv) :
    arun n (tr ++ [e]) = (arun n tr).bind (fun s => astep n s e) := by
  unfold arun
  rw [List.foldl_append]
  rfl

theorem appInv_taskstep (tr : List AEv) (s : AppSt) (i : Nat) (pcFrom pcTo : TPC) (ev : AEv)
    (hrecv : isRecvEv ev = false)
    (hpair : ∀ j, isPairEv j ev = (i == j))
    (hpc : pcEvents i pcTo = pcEvents i pcFrom ++ [ev])
    (hguard : alookup s.tasks i = some pcFrom)
    (hInv : AppInv tr s) :
    AppInv (tr ++ [ev]) ⟨s.received, amodify s.tasks i (fun _ => pcTo)⟩ := by
  obtain ⟨h1, h2, h3, h4⟩ := hInv
  have hnd : (akeys s.tasks).Nodup := by
    rw [h2]
    exact List.nodup_range _
  have himem : i ∈ akeys s.tasks := by
    rw [← alookup_isSome_iff, hguard]
    rfl
  refine ⟨?_, ?_, ?_, ?_⟩
  · rw [List.filter_append, h1]
    simp [List.filter_cons, hrecv]
  · simp only [akeys_amodify]
    exact h2
  · intro p hp
    rw [amodify, List.mem_map] at hp
    obtain ⟨q, hq, hgq⟩ := hp
    by_cases hqk : q.1 = i
    · have hlq : alookup s.tasks q.1 = some q.2 := alookup_eq_some_of_mem hnd hq
      rw [hqk, hguard] at hlq
      have hq2 : q.2 = pcFrom := by
        rw [Option.some.injEq] at hlq
        exact hlq.symm
      rw [if_pos hqk] at hgq
      rw [← hgq]
      simp only
      rw [List.filter_append, h3 q hq, hq2, hqk]
      rw [List.filter_cons, hpair i]
      simp only [beq_self_eq_true, if_true, List.filter_nil]
      exact hpc.symm
    · rw [if_neg hqk] at hgq
      rw [← hgq]
      rw [List.filter_append, h3 q hq]
      rw [List.filter_cons, hpair q.1]
      have : (i == q.1) = false := by
        simp only [beq_eq_false_iff_ne]
        exact fun hc => hqk hc.symm
      rw [this]
      simp
  · intro j hj
    simp only [akeys_amodify] at hj
    rw [List.filter_append, h4 j hj]
    rw [List.filter_cons, hpair j]
    have : (i == j) = false := by
      simp only [beq_eq_false_iff_ne]
      intro hc
      rw [hc] at himem
      exact hj himem
    rw [this]
    simp

theorem arun_inv (n : Nat) (tr : List AEv) (s : AppSt) (h : arun n tr = some s) :
    AppInv tr s := by
  induction tr using List.reverseRecOn generalizing s with
  | nil =>
    have hs : s = appInit := by
      unfold arun at h
      simp only [List.foldl_nil, Option.some.injEq] at h
      exact h.symm
    subst hs
    exact ⟨rfl, rfl, fun p hp => absurd hp (List.not_mem_nil p), fun i hi => rfl⟩
  | append_singleton tr e ih =>
    rw [arun_append] at h
    cases hrun : arun n tr with
    | none =>
      rw [hrun] at h
      simp at h
    | some s1 =>
      rw [hrun] at h
      simp only [Option.some_bind] at h
      have hInv := ih s1 hrun
      cases e with
      | recv i =>
        simp only [astep] at h
        split_ifs at h with hg
        · rw [Option.some.injEq] at h
          subst h
          obtain ⟨hg1, hg2⟩ := hg
          subst hg1
          obtain ⟨h1, h2, h3, h4⟩ := hInv
          have hrnotin : s1.received ∉ akeys s1.tasks := by
            rw [h2]
            simp
          refine ⟨?_, ?_, ?_, ?_⟩
          · rw [List.filter_append, h1]
            simp only [List.filter_cons, isRecvEv, if_true, List.filter_nil]
            rw [List.range_succ, List.map_append]
            rfl
          · simp only [akeys_append]
            rw [h2, List.range_succ]
            rfl
          · intro p hp
            rcases List.mem_append.mp hp with hold | hnew
            · rw [List.filter_append, h3 p hold]
              have hlt : p.1 < s1.received := by
                have : p.1 ∈ akeys s1.tasks := List.mem_map_of_mem (fun q => q.1) hold
                rw [h2] at this
                exact List.mem_range.mp this
              have hne : (s1.received == p.1) = false := by
                simp only [beq_eq_false_iff_ne]
                omega
              simp [List.filter_cons, isPairEv, hne]
            · have hpnew : p = (s1.received, TPC.spawned) := by
                simpa using hnew
              subst hpnew
              simp only
              rw [List.filter_append, h4 s1.received hrnotin]
              simp [List.filter_cons, isPairEv, pcEvents]
          · intro j hj
            simp only [akeys_append] at hj
            rw [h2] at hj
            have hj1 : j ∉ List.range s1.received := fun hc =>
              hj (List.mem_append.mpr (Or.inl hc))
            have hj2 : ¬ j = s1.received := by
              intro hc
              apply hj
              apply List.mem_append.mpr
              right
              rw [hc]
              simp [akeys]
            rw [List.filter_append, h4 j (by rw [h2]; exact hj1)]
            have hne : (s1.received == j) = false := by
              simp only [beq_eq_false_iff_ne]
              omega
            simp [List.filter_cons, isPairEv, hne]
      | readPrev i =>
        simp only [astep] at h
        cases hlk : alookup s1.tasks i with
        | none =>
          rw [hlk] at h
          exact absurd h (by simp)
        | some pc =>
          rw [hlk] at h
          cases pc with
          | spawned =>
            rw [Option.some.injEq] at h
            subst h
            exact appInv_taskstep tr s1 i TPC.spawned TPC.readDone (AEv.readPrev i)
              rfl (fun j => rfl) rfl hlk hInv
          | readDone => exact absurd h (by simp)
          | mutated => exact absurd h (by simp)
          | done => exact absurd h (by simp)
      | mutate i =>
        simp only [astep] at h
        cases hlk : alookup s1.tasks i with
        | none =>
          rw [hlk] at h
          exact absurd h (by simp)
        | some pc =>
          rw [hlk] at h
          cases pc with
          | readDone =>
            rw [Option.some.injEq] at h
            subst h
            exact appInv_taskstep tr s1 i TPC.readDone TPC.mutated (AEv.mutate i)
              rfl (fun j => rfl) rfl hlk hInv
          | spawned => exact absurd h (by simp)
          | mutated => exact absurd h (by simp)
          | done => exact absurd h (by simp)
      | writePrev i =>
        simp only [astep] at h
        cases hlk : alookup s1.tasks i with
        | none =>
          rw [hlk] at h
          exact absurd h (by simp)
        | some pc =>
          rw [hlk] at h
          cases pc with
          | mutated =>
            rw [Option.some.injEq] at h
            subst h
            exact appInv_taskstep tr s1 i TPC.mutated TPC.done (AEv.writePrev i)
              rfl (fun j => rfl) rfl hlk hInv
          | spawned => exact absurd h (by simp)
          | readDone => exact absurd h (by simp)
          | done => exact absurd h (by simp)

/-- C2 (amended): the applicator does receive pairs strictly in channel
order, and each pair's processing performs receive, previous-snapshot read,
locked book mutation and snapshot replacement exactly once and in that
program order — but, because each pair is handed to a spawned task, a later
pair's processing may begin before an earlier pair's completes (see the
counterexample), so processing is not serial across pairs. -/
theorem claimC2 (n : Nat) (tr : List AEv) (hc : completeTrace n tr = true) :
    tr.filter isRecvEv = (List.range n).map AEv.recv ∧
    ∀ i < n, tr.filter (isPairEv i) =
      [AEv.recv i, AEv.readPrev i, AEv.mutate i, AEv.writePrev i] := by
  unfold completeTrace at hc
  cases hrun : arun n tr with
  | none =>
    rw [hrun] at hc
    exact absurd hc (by simp)
  | some s =>
    rw [hrun] at hc
    simp only [Bool.and_eq_true, beq_iff_eq, List.all_eq_true] at hc
    obtain ⟨hrec, hdone⟩ := hc
    obtain ⟨h1, h2, h3, h4⟩ := arun_inv n tr s hrun
    constructor
    · rw [h1, hrec]
    · intro i hi
      have hik : i ∈ akeys s.tasks := by
        rw [h2, hrec]
        exact List.mem_range.mpr hi
      rw [akeys, List.mem_map] at hik
      obtain ⟨p, hp, hpi⟩ := hik
      have hpd : p.2 = TPC.done := by
        have := hdone p hp
        simpa using this
      have hfin := h3 p hp
      rw [hpi, hpd] at hfin
      exact hfin

/-- The serial one-pair trace used to instantiate `claimC2`. -/
def apTrW : List AEv :=
  [AEv.recv 0, AEv.readPrev 0, AEv.mutate 0, AEv.writePrev 0]

theorem claimC2_witness :
    apTrW.filter isRecvEv = (List.range 1).map AEv.recv ∧
    apTrW.filter (isPairEv 0) =
      [AEv.recv 0, AEv.readPrev 0, AEv.mutate 0, AEv.writePrev 0] :=
  ⟨(claimC2 1 apTrW (by decide)).1, (claimC2 1 apTrW (by decide)).2 0 (by decide)⟩

/- ### C5: the error-budget throttle in `ESIClient::esi_get`

`esi_get` acquires the `errors` mutex, and — while still holding it —
sleeps for `error_timeout` seconds when `*errors <= 10`
(`await_esi_timeout`); the lock is dropped at the end of the block, and
only then is the HTTP request sent.  We model concurrent callers as a
timed labelled transition system: each task acquires the mutex, optionally
sleeps (mandatory exactly when `errors ≤ 10`), releases, and sends.  Times
are monotone along the trace and a sleep can only end `timeout` seconds
after it began. -/

inductive CAct where
  | acquire
  | sleepStart
  | sleepEnd
  | release
  | send
deriving DecidableEq, Repr

/-- A timed event: at `time`, task `task` performs `act`. -/
structure CEv where
  time : Nat
  task : Nat
  act : CAct
deriving DecidableEq, Repr

/-- Program counter of one caller of `esi_get`.  Timestamps record when
the phase was entered (`ss` sleep start, `se` sleep end, `ts` send). -/
inductive CPC where
  | locked (ta : Nat)
  | sleeping (ss : Nat)
  | slept (ss se : Nat)
  | released (ss se : Nat)
  | releasedNoSleep (rt : Nat)
  | sent (ss se ts : Nat)
  | sentNoSleep (ts : Nat)
deriving DecidableEq, Repr

/-- Global state: current time, holder of the `errors` mutex, and each
task's program counter. -/
structure CSt where
  clock : Nat
  owner : Option Nat
  tasks : List (Nat × CPC)
deriving DecidableEq, Repr

def cInit : CSt := ⟨0, none, []⟩

/-- One transition of the throttle model.  `acquire` takes the `errors`
mutex (blocking while another task holds it); `sleepStart` is only enabled
while holding the mutex and when `errors ≤ 10`; `sleepEnd` requires the
full `timeout` to have elapsed; `release` drops the mutex — after the
sleep when `errors ≤ 10`, directly otherwise; `send` starts the HTTP
request, which the code only reaches after the block releasing the lock. -/
def cstep (errors timeout : Nat) (s : CSt) (e : CEv) : Option CSt :=
  if s.clock ≤ e.time then
    match e.act with
    | CAct.acquire =>
      match s.owner, alookup s.tasks e.task with
      | none, none =>
        some ⟨e.time, some e.task, s.tasks ++ [(e.task, CPC.locked e.time)]⟩
      | _, _ => none
    | CAct.sleepStart =>
      if s.owner = some e.task ∧ errors ≤ 10 then
        match alookup s.tasks e.task with
        | some (CPC.locked _) =>
          some ⟨e.time, s.owner, amodify s.tasks e.task (fun _ => CPC.sleeping e.time)⟩
        | _ => none
      else none
    | CAct.sleepEnd =>
      match alookup s.tasks e.task with
      | some (CPC.sleeping ss) =>
        if ss + timeout ≤ e.time then
          some ⟨e.time, s.owner, amodify s.tasks e.task (fun _ => CPC.slept ss e.time)⟩
        else none
      | _ => none
    | CAct.release =>
      if s.owner = some e.task then
        match alookup s.tasks e.task with
        | some (CPC.slept ss se) =>
          some ⟨e.time, none, amodify s.tasks e.task (fun _ => CPC.released ss se)⟩
        | some (CPC.locked _) =>
          if errors ≤ 10 then none
          else some ⟨e.time, none, amodify s.tasks e.task (fun _ => CPC.releasedNoSleep e.time)⟩
        | _ => none
      else none
    | CAct.send =>
      match alookup s.tasks e.task with
      | some (CPC.released ss se) =>
        if se ≤ e.time then
          some ⟨e.time, s.owner, amodify s.tasks e.task (fun _ => CPC.sent ss se e.time)⟩
        else none
      | some (CPC.releasedNoSleep rt) =>
        if rt ≤ e.time then
          some ⟨e.time, s.owner, amodify s.tasks e.task (fun _ => CPC.sentNoSleep e.time)⟩
        else none
      | _ => none
  else none

/-- Run the throttle model over a trace. -/
def crun (errors timeout : Nat) (tr : List CEv) : Option CSt :=
  tr.foldl (fun acc e => acc.bind (fun s => cstep errors timeout s e)) (some cInit)

/-- `true` iff the task currently holds the `errors` mutex. -/
def inLock : CPC → Bool
  | CPC.locked _ => true
  | CPC.sleeping _ => true
  | CPC.slept _ _ => true
  | _ => false

/-- Per-task invariant: a task past `sleepStart` saw `errors ≤ 10`, its
sleep lasted at least `timeout`, and its send happened after the sleep;
the no-sleep path is only taken when `errors > 10`. -/
def pcOK (errors timeout : Nat) : CPC → Prop
  | CPC.locked _ => True
  | CPC.sleeping _ => errors ≤ 10
  | CPC.slept ss se => errors ≤ 10 ∧ ss + timeout ≤ se
  | CPC.released ss se => errors ≤ 10 ∧ ss + timeout ≤ se
  | CPC.releasedNoSleep _ => ¬ errors ≤ 10
  | CPC.sent ss _ ts => errors ≤ 10 ∧ ss + timeout ≤ ts
  | CPC.sentNoSleep _ => ¬ errors ≤ 10

/-- State invariant of the throttle model. -/
def CInv (errors timeout : Nat) (s : CSt) : Prop :=
  (∀ p ∈ s.tasks, pcOK errors timeout p.2) ∧
  (s.owner = none → ∀ p ∈ s.tasks, inLock p.2 = false) ∧
  (∀ t2, s.owner = some t2 → ∀ p ∈ s.tasks, inLock p.2 = true → p.1 = t2)

theorem mem_amodify_const {α : Type} {m : List (Nat × α)} {k : Nat} {v : α} {p : Nat × α}
    (hp : p ∈ amodify m k (fun _ => v)) :
    (p.1 = k ∧ p.2 = v) ∨ (¬ p.1 = k ∧ p ∈ m) := by
  rw [amodify, List.mem_map] at hp
  obtain ⟨q, hq, hgq⟩ := hp
  by_cases hk : q.1 = k
  · left
    rw [if_pos hk] at hgq
    rw [← hgq]
    exact ⟨hk, rfl⟩
  · right
    rw [if_neg hk] at hgq
    rw [← hgq]
    exact ⟨hk, hq⟩

theorem crun_append (errors timeout : Nat) (tr : List CEv) (e : CEv) :
    crun errors timeout (tr ++ [e]) =
      (crun errors timeout tr).bind (fun s => cstep errors timeout s e) := by
  unfold crun
  rw [List.foldl_append]
  rfl

theorem cstep_inv (errors timeout : Nat) (s1 : CSt) (e : CEv) (s : CSt)
    (hInv : CInv errors timeout s1) (h : cstep errors timeout s1 e = some s) :
    CInv errors timeout s := by
  obtain ⟨h1, h2, h3⟩ := hInv
  obtain ⟨t, τ, a⟩ := e
  cases a with
  | acquire =>
    simp only [cstep] at h
    by_cases hclk : s1.clock ≤ t
    case neg =>
      rw [if_neg hclk] at h
      exact absurd h (by simp)
    rw [if_pos hclk] at h
    cases how1 : s1.owner with
    | some t0 =>
      rw [how1] at h
      cases hlk : alookup s1.tasks τ with
      | none =>
        rw [hlk] at h
        exact absurd h (by simp)
      | some pc =>
        rw [hlk] at h
        exact absurd h (by simp)
    | none =>
      rw [how1] at h
      cases hlk : alookup s1.tasks τ with
      | some pc =>
        rw [hlk] at h
        exact absurd h (by simp)
      | none =>
        rw [hlk] at h
        rw [Option.some.injEq] at h
        subst h
        refine ⟨?_, ?_, ?_⟩
        · intro p hp
          rcases List.mem_append.mp hp with hold | hnew
          · exact h1 p hold
          · have hpv : p = (τ, CPC.locked t) := by simpa using hnew
            rw [hpv]
            exact trivial
        · intro hnone
          have hnone2 : (some τ : Option Nat) = none := hnone
          simp at hnone2
        · intro t2 ht2 p hp hl
          have ht2b : (some τ : Option Nat) = some t2 := ht2
          have hτ : τ = t2 := by
            simpa using ht2b
          rcases List.mem_append.mp hp with hold | hnew
          · have hfalse := h2 how1 p hold
            rw [hl] at hfalse
            exact absurd hfalse (by simp)
          · have hpv : p = (τ, CPC.locked t) := by simpa using hnew
            rw [hpv]
            exact hτ
  | sleepStart =>
    simp only [cstep] at h
    by_cases hclk : s1.clock ≤ t
    case neg =>
      rw [if_neg hclk] at h
      exact absurd h (by simp)
    rw [if_pos hclk] at h
    by_cases hg : s1.owner = some τ ∧ errors ≤ 10
    case neg =>
      rw [if_neg hg] at h
      exact absurd h (by simp)
    rw [if_pos hg] at h
    obtain ⟨how, he10⟩ := hg
    cases hlk : alookup s1.tasks τ with
    | none =>
      rw [hlk] at h
      exact absurd h (by simp)
    | some pc =>
      rw [hlk] at h
      cases pc with
      | locked ta =>
        rw [Option.some.injEq] at h
        subst h
        refine ⟨?_, ?_, ?_⟩
        · intro p hp
          rcases mem_amodify_const hp with ⟨hk, hv⟩ | ⟨hk, hmem⟩
          · rw [hv]
            exact he10
          · exact h1 p hmem
        · intro hnone
          have hnone2 : s1.owner = none := hnone
          rw [how] at hnone2
          simp at hnone2
        · intro t2 ht2 p hp hl
          have ht2b : s1.owner = some t2 := ht2
          have hτ : τ = t2 := by
            rw [how] at ht2b
            simpa using ht2b
          rcases mem_amodify_const hp with ⟨hk, hv⟩ | ⟨hk, hmem⟩
          · rw [hk]
            exact hτ
          · exact h3 t2 (by exact ht2) p hmem hl
      | sleeping ss => exact absurd h (by simp)
      | slept ss se => exact absurd h (by simp)
      | released ss se => exact absurd h (by simp)
      | releasedNoSleep rt => exact absurd h (by simp)
      | sent ss se ts => exact absurd h (by simp)
      | sentNoSleep ts => exact absurd h (by simp)
  | sleepEnd =>
    simp only [cstep] at h
    by_cases hclk : s1.clock ≤ t
    case neg =>
      rw [if_neg hclk] at h
      exact absurd h (by simp)
    rw [if_pos hclk] at h
    cases hlk : alookup s1.tasks τ with
    | none =>
      rw [hlk] at h
      exact absurd h (by simp)
    | some pc =>
      rw [hlk] at h
      cases pc with
      | sleeping ss =>
        simp only at h
        by_cases hle : ss + timeout ≤ t
        case neg =>
          rw [if_neg hle] at h
          exact absurd h (by simp)
        rw [if_pos hle] at h
        rw [Option.some.injEq] at h
        subst h
        have hmemτ : (τ, CPC.sleeping ss) ∈ s1.tasks := mem_of_alookup_eq_some hlk
        have he10 : errors ≤ 10 := h1 (τ, CPC.sleeping ss) hmemτ
        refine ⟨?_, ?_, ?_⟩
        · intro p hp
          rcases mem_amodify_const hp with ⟨hk, hv⟩ | ⟨hk, hmem⟩
          · rw [hv]
            exact ⟨he10, hle⟩
          · exact h1 p hmem
        · intro hnone
          have hnone2 : s1.owner = none := hnone
          have hfalse := h2 hnone2 (τ, CPC.sleeping ss) hmemτ
          simp [inLock] at hfalse
        · intro t2 ht2 p hp hl
          have ht2b : s1.owner = some t2 := ht2
          have hτ : τ = t2 := h3 t2 ht2b (τ, CPC.sleeping ss) hmemτ rfl
          rcases mem_amodify_const hp with ⟨hk, hv⟩ | ⟨hk, hmem⟩
          · rw [hk]
            exact hτ
          · exact h3 t2 ht2b p hmem hl
      | locked ta => exact absurd h (by simp)
      | slept ss se => exact absurd h (by simp)
      | released ss se => exact absurd h (by simp)
      | releasedNoSleep rt => exact absurd h (by simp)
      | sent ss se ts => exact absurd h (by simp)
      | sentNoSleep ts => exact absurd h (by simp)
  | release =>
    simp only [cstep] at h
    by_cases hclk : s1.clock ≤ t
    case neg =>
      rw [if_neg hclk] at h
      exact absurd h (by simp)
    rw [if_pos hclk] at h
    by_cases how : s1.owner = some τ
    case neg =>
      rw [if_neg how] at h
      exact absurd h (by simp)
    rw [if_pos how] at h
    cases hlk : alookup s1.tasks τ with
    | none =>
      rw [hlk] at h
      exact absurd h (by simp)
    | some pc =>
      rw [hlk] at h
      cases pc with
      | slept ss se =>
        rw [Option.some.injEq] at h
        subst h
        have hmemτ : (τ, CPC.slept ss se) ∈ s1.tasks := mem_of_alookup_eq_some hlk
        have hok : errors ≤ 10 ∧ ss + timeout ≤ se := h1 (τ, CPC.slept ss se) hmemτ
        refine ⟨?_, ?_, ?_⟩
        · intro p hp
          rcases mem_amodify_const hp with ⟨hk, hv⟩ | ⟨hk, hmem⟩
          · rw [hv]
            exact hok
          · exact h1 p hmem
        · intro _ p hp
          rcases mem_amodify_const hp with ⟨hk, hv⟩ | ⟨hk, hmem⟩
          · rw [hv]
            rfl
          · cases hcl : inLock p.2 with
            | false => rfl
            | true => exact absurd (h3 τ how p hmem hcl) hk
        · intro t2 ht2 p hp hl
          have ht2b : (none : Option Nat) = some t2 := ht2
          simp at ht2b
      | locked ta =>
        simp only at h
        by_cases he10 : errors ≤ 10
        case pos =>
          rw [if_pos he10] at h
          exact absurd h (by simp)
        rw [if_neg he10] at h
        rw [Option.some.injEq] at h
        subst h
        refine ⟨?_, ?_, ?_⟩
        · intro p hp
          rcases mem_amodify_const hp with ⟨hk, hv⟩ | ⟨hk, hmem⟩
          · rw [hv]
            exact he10
          · exact h1 p hmem
        · intro _ p hp
          rcases mem_amodify_const hp with ⟨hk, hv⟩ | ⟨hk, hmem⟩
          · rw [hv]
            rfl
          · cases hcl : inLock p.2 with
            | false => rfl
            | true => exact absurd (h3 τ how p hmem hcl) hk
        · intro t2 ht2 p hp hl
          have ht2b : (none : Option Nat) = some t2 := ht2
          simp at ht2b
      | sleeping ss => exact absurd h (by simp)
      | released ss se => exact absurd h (by simp)
      | releasedNoSleep rt => exact absurd h (by simp)
      | sent ss se ts => exact absurd h (by simp)
      | sentNoSleep ts => exact absurd h (by simp)
  | send =>
    simp only [cstep] at h
    by_cases hclk : s1.clock ≤ t
    case neg =>
      rw [if_neg hclk] at h
      exact absurd h (by simp)
    rw [if_pos hclk] at h
    cases hlk : alookup s1.tasks τ with
    | none =>
      rw [hlk] at h
      exact absurd h (by simp)
    | some pc =>
      rw [hlk] at h
      cases pc with
      | released ss se =>
        simp only at h
        by_cases hse : se ≤ t
        case neg =>
          rw [if_neg hse] at h
          exact absurd h (by simp)
        rw [if_pos hse] at h
        rw [Option.some.injEq] at h
        subst h
        have hmemτ : (τ, CPC.released ss se) ∈ s1.tasks := mem_of_alookup_eq_some hlk
        have hok : errors ≤ 10 ∧ ss + timeout ≤ se := h1 (τ, CPC.released ss se) hmemτ
        refine ⟨?_, ?_, ?_⟩
        · intro p hp
          rcases mem_amodify_const hp with ⟨hk, hv⟩ | ⟨hk, hmem⟩
          · rw [hv]
            exact ⟨hok.1, le_trans hok.2 hse⟩
          · exact h1 p hmem
        · intro hnone p hp
          have hnone2 : s1.owner = none := hnone
          rcases mem_amodify_const hp with ⟨hk, hv⟩ | ⟨hk, hmem⟩
          · rw [hv]
            rfl
          · exact h2 hnone2 p hmem
        · intro t2 ht2 p hp hl
          have ht2b : s1.owner = some t2 := ht2
          rcases mem_amodify_const hp with ⟨hk, hv⟩ | ⟨hk, hmem⟩
          · rw [hv] at hl
            simp [inLock] at hl
          · exact h3 t2 ht2b p hmem hl
      | releasedNoSleep rt =>
        simp only at h
        by_cases hrt : rt ≤ t
        case neg =>
          rw [if_neg hrt] at h
          exact absurd h (by simp)
        rw [if_pos hrt] at h
        rw [Option.some.injEq] at h
        subst h
        have hmemτ : (τ, CPC.releasedNoSleep rt) ∈ s1.tasks := mem_of_alookup_eq_some hlk
        have hok : ¬ errors ≤ 10 := h1 (τ, CPC.releasedNoSleep rt) hmemτ
        refine ⟨?_, ?_, ?_⟩
        · intro p hp
          rcases mem_amodify_const hp with ⟨hk, hv⟩ | ⟨hk, hmem⟩
          · rw [hv]
            exact hok
          · exact h1 p hmem
        · intro hnone p hp
          have hnone2 : s1.owner = none := hnone
          rcases mem_amodify_const hp with ⟨hk, hv⟩ | ⟨hk, hmem⟩
          · rw [hv]
            rfl
          · exact h2 hnone2 p hmem
        · intro t2 ht2 p hp hl
          have ht2b : s1.owner = some t2 := ht2
          rcases mem_amodify_const hp with ⟨hk, hv⟩ | ⟨hk, hmem⟩
          · rw [hv] at hl
            simp [inLock] at hl
          · exact h3 t2 ht2b p hmem hl
      | locked ta => exact absurd h (by simp)
      | sleeping ss => exact absurd h (by simp)
      | slept ss se => exact absurd h (by simp)
      | sent ss se ts => exact absurd h (by simp)
      | sentNoSleep ts => exact absurd h (by simp)

theorem crun_inv (errors timeout : Nat) (tr : List CEv) (s : CSt)
    (h : crun errors timeout tr = some s) : CInv errors timeout s := by
  induction tr using List.reverseRecOn generalizing s with
  | nil =>
    have hs : s = cInit := by
      unfold crun at h
      simp only [List.foldl_nil, Option.some.injEq] at h
      exact h.symm
    subst hs
    exact ⟨fun p hp => absurd hp (List.not_mem_nil p),
      fun _ p hp => absurd hp (List.not_mem_nil p),
      fun t2 ht2 => by simp [cInit] at ht2⟩
  | append_singleton tr e ih =>
    rw [crun_append] at h
    cases hrun : crun errors timeout tr with
    | none =>
      rw [hrun] at h
      exact absurd h (by simp)
    | some s1 =>
      rw [hrun] at h
      simp only [Option.some_bind] at h
      exact cstep_inv errors timeout s1 e s (ih s1 hrun) h

/-- C5: in the throttle model of `esi_get`, whenever `errors_remaining ≤ 10`
no call begins sending its HTTP request until `reset_seconds` have elapsed
since its throttle wait began — every completed send by a task that slept
happened at least `timeout` after its sleep started, and under
`errors ≤ 10` the sleep cannot be skipped; moreover, because the sleep
happens while the `errors` mutex is held, at most one task is inside the
locked region at any time, so the throttle serializes across concurrent
callers. -/
theorem claimC5 (errors timeout : Nat) (tr : List CEv) (s : CSt)
    (h : crun errors timeout tr = some s) :
    (∀ t2 ss se ts, alookup s.tasks t2 = some (CPC.sent ss se ts) → ss + timeout ≤ ts) ∧
    (errors ≤ 10 → ∀ t2 ts, ¬ alookup s.tasks t2 = some (CPC.sentNoSleep ts)) ∧
    (∀ p ∈ s.tasks, ∀ q ∈ s.tasks, inLock p.2 = true → inLock q.2 = true → p.1 = q.1) := by
  obtain ⟨h1, h2, h3⟩ := crun_inv errors timeout tr s h
  refine ⟨?_, ?_, ?_⟩
  · intro t2 ss se ts hlk
    exact (h1 (t2, CPC.sent ss se ts) (mem_of_alookup_eq_some hlk)).2
  · intro he10 t2 ts hlk
    exact (h1 (t2, CPC.sentNoSleep ts) (mem_of_alookup_eq_some hlk)) he10
  · intro p hp q hq hlp hlq
    cases how : s.owner with
    | none =>
      have hfalse := h2 how p hp
      rw [hlp] at hfalse
      exact absurd hfalse (by simp)
    | some t2 =>
      rw [h3 t2 how p hp hlp, h3 t2 how q hq hlq]

/-- A throttled single-caller trace: with `errors = 5 ≤ 10` and
`timeout = 60`, the task sleeps the full 60 seconds before sending. -/
def c5tr : List CEv :=
  [⟨0, 0, CAct.acquire⟩, ⟨0, 0, CAct.sleepStart⟩, ⟨60, 0, CAct.sleepEnd⟩,
   ⟨61, 0, CAct.release⟩, ⟨61, 0, CAct.send⟩]

theorem claimC5_witness :
    crun 5 60 c5tr = some ⟨61, none, [(0, CPC.sent 0 60 61)]⟩ ∧ (0 : Nat) + 60 ≤ 61 :=
  ⟨by decide,
   (claimC5 5 60 c5tr ⟨61, none, [(0, CPC.sent 0 60 61)]⟩ (by decide)).1 0 0 60 61 (by decide)⟩
